import Mathlib

/-!
Verification of the daily-dosage engine of the `med_inventory` repository
(`src/apply_daily_dosage.py` against the schema of `src/create_schema.py`).

The sqlite database is embedded as a `Ledger` value: the `medicines` table as a
list of medicine ids, the `batches` table, the `daily_dosage` table and the
`stock_moves` table as lists of rows.  All numeric quantities (`stock_units`,
`qty_change`, the running `remaining` of the allocator) are modelled as exact
rationals, matching the spec's numeric semantics (fractional dosing permitted;
sqlite stores REAL deltas).  Calendar dates are the `YYYY-MM-DD` strings sqlite
stores; sqlite's `date(X)` on the well-formed values this program writes keeps
the first ten characters, and comparison under the default BINARY collation is
bytewise lexicographic, modelled by the structural comparator `strLt`.
-/

namespace MedInventory

/-- Bytewise lexicographic strict order on character lists: the semantics of
sqlite's BINARY collation on the ASCII strings this program stores. -/
def charsLt : List Char → List Char → Bool
  | _, [] => false
  | [], _ :: _ => true
  | a :: as, b :: bs =>
    decide (a.toNat < b.toNat) || (decide (a.toNat = b.toNat) && charsLt as bs)

/-- Strict string comparison (sqlite BINARY collation). -/
def strLt (a b : String) : Bool := charsLt a.data b.data

/-- Reflexive string comparison `a <= b`, as the complement of `strLt b a`. -/
def strLe (a b : String) : Bool := ! strLt b a

/-- Model of sqlite `date(X)` on the well-formed values this program stores
(`YYYY-MM-DD` and `YYYY-MM-DD HH:MM:SS`): the first ten characters. -/
def dateOf (s : String) : String := String.mk (s.data.take 10)

/-- Source `log_ts`: a fixed 20:00:00 time-of-day anchor for the run date. -/
def log_ts (run_date : String) : String := run_date ++ " 20:00:00"

/-- A row of the `batches` table. -/
structure Batch where
  batch_id : Nat
  medicine_id : String
  batch_no : String
  stock_units : ℚ
  expiry_date : Option String
  deriving Repr, DecidableEq

/-- A row of the `stock_moves` table (the append-only movement log). -/
structure Movement where
  ts : String
  medicine_id : String
  batch_id : Option Nat
  qty_change : ℚ
  reason : String
  note : String
  deriving Repr, DecidableEq

/-- A row of the `daily_dosage` table (per-slot dosage configuration). -/
structure DosageRow where
  medicine_id : String
  before_bf : Option Int
  after_bf : Option Int
  at_8pm : Option Int
  after_dinner : Option Int
  deriving Repr, DecidableEq

/-- The mutable database state: medicines, batches, dosage plan, movement log. -/
structure Ledger where
  medicines : List String
  batches : List Batch
  daily_dosage : List DosageRow
  moves : List Movement
  deriving Repr, DecidableEq

/-- Source `already_ran_for`: does any `stock_moves` row with reason
`daily_dose` have its timestamp on the run date? -/
def already_ran_for (l : Ledger) (run_date : String) : Bool :=
  l.moves.any fun m =>
    decide (m.reason = "daily_dose") && decide (dateOf m.ts = dateOf run_date)

/-- The `WHERE` clause filling `_to_scrap` in `scrap_expired`: positive stock
and a non-null expiry date strictly before the run date. -/
def isScrapCandidate (run_date : String) (b : Batch) : Bool :=
  decide (0 < b.stock_units) &&
    (match b.expiry_date with
     | none => false
     | some e => strLt (dateOf e) (dateOf run_date))

/-- The `expired` movement `scrap_expired` logs for one reclaimed batch. -/
def expiredMove (run_date : String) (b : Batch) : Movement :=
  { ts := log_ts run_date
    medicine_id := b.medicine_id
    batch_id := some b.batch_id
    qty_change := -b.stock_units
    reason := "expired"
    note := "Auto-scrap expired before " ++ run_date }

/-- Source `scrap_expired`: collect expired batches with stock into
`_to_scrap`, zero their stock by batch id, and log one `expired` movement
per collected row with positive quantity. -/
def scrap_expired (l : Ledger) (run_date : String) : Ledger :=
  let toScrap := l.batches.filter (isScrapCandidate run_date)
  let scrapIds := toScrap.map (·.batch_id)
  { l with
    batches := l.batches.map fun b =>
      if b.batch_id ∈ scrapIds then { b with stock_units := 0 } else b
    moves := l.moves ++
      (toScrap.filter fun b => decide (0 < b.stock_units)).map (expiredMove run_date) }

/-- COALESCE(x, 0) on a nullable integer column. -/
def coalesce0 (x : Option Int) : Int := x.getD 0

/-- The derived column of the `v_daily_units` view: the sum of the four
dosage slots. -/
def units_per_day (r : DosageRow) : Int :=
  coalesce0 r.before_bf + coalesce0 r.after_bf + coalesce0 r.at_8pm +
    coalesce0 r.after_dinner

/-- The `v_daily_units` view: one `(medicine_id, units_per_day)` row per
`daily_dosage` row. -/
def v_daily_units (l : Ledger) : List (String × Int) :=
  l.daily_dosage.map fun r => (r.medicine_id, units_per_day r)

/-- The plan query of `fefo_deduct`: rows of `v_daily_units` with
`units_per_day > 0`. -/
def plan (l : Ledger) : List (String × Int) :=
  (v_daily_units l).filter fun p => decide (0 < p.2)

/-- The candidate filter of `fefo_deduct`: same medicine, positive stock,
expiry null or on/after the run date. -/
def isCandidate (med run_date : String) (b : Batch) : Bool :=
  decide (b.medicine_id = med) && decide (0 < b.stock_units) &&
    (match b.expiry_date with
     | none => true
     | some e => strLe (dateOf run_date) (dateOf e))

/-- The first `ORDER BY` key: `(expiry_date IS NULL) ASC` puts null-expiry
batches last. -/
def nullRank (b : Batch) : Nat := if b.expiry_date.isNone then 1 else 0

/-- The second `ORDER BY` key: `date(expiry_date) ASC` (all null-expiry
batches compare equal on it). -/
def expiryKey (b : Batch) : String := (b.expiry_date.map dateOf).getD ""

/-- The FEFO comparator of `fefo_deduct`'s `ORDER BY`: null-expiry last,
then ascending expiry date, ties broken by ascending `batch_id`. -/
def fefoLe (a b : Batch) : Bool :=
  decide (nullRank a < nullRank b) ||
    (decide (nullRank a = nullRank b) &&
      (strLt (expiryKey a) (expiryKey b) ||
        (decide (expiryKey a = expiryKey b) && decide (a.batch_id ≤ b.batch_id))))

/-- The candidate query of `fefo_deduct`: eligible batches of the medicine in
FEFO order. -/
def candidates (l : Ledger) (med run_date : String) : List Batch :=
  (l.batches.filter (isCandidate med run_date)).insertionSort
    fun a b => fefoLe a b = true

/-- The `daily_dose` movement logged for one batch deduction. -/
def consumptionMove (run_date med : String) (bid : Nat) (take : ℚ) : Movement :=
  { ts := log_ts run_date
    medicine_id := med
    batch_id := some bid
    qty_change := -take
    reason := "daily_dose"
    note := "FEFO daily deduction " ++ run_date }

/-- The `shortfall` movement logged when a requirement stays unmet. -/
def shortfallMove (run_date med : String) (remaining : ℚ) : Movement :=
  { ts := log_ts run_date
    medicine_id := med
    batch_id := none
    qty_change := 0
    reason := "shortfall"
    note := "Needed " ++ toString remaining ++ " more units on " ++ run_date }

/-- The shortfall tolerance of the source (`remaining > 1e-6`). -/
def tol : ℚ := 1 / 1000000

/-- The inner loop of `fefo_deduct` over the fetched `(batch_id, stock_units)`
rows: break once `remaining <= 0`, take `min(stock, remaining)` from each
batch, update the batch and log a `daily_dose` movement. -/
def walkBatches (run_date med : String) :
    List (Nat × ℚ) → ℚ → Ledger → ℚ × Ledger
  | [], remaining, l => (remaining, l)
  | (bid, stock) :: rest, remaining, l =>
    if remaining ≤ 0 then (remaining, l)
    else
      let take := min stock remaining
      if take ≤ 0 then walkBatches run_date med rest remaining l
      else
        let l1 : Ledger :=
          { l with
            batches := l.batches.map fun b =>
              if b.batch_id = bid then
                { b with stock_units := b.stock_units - take }
              else b
            moves := l.moves ++ [consumptionMove run_date med bid take] }
        walkBatches run_date med rest (remaining - take) l1

/-- One iteration of `fefo_deduct`'s outer loop: walk the FEFO candidates of
one plan item, then log a `shortfall` movement when more than the tolerance
remains unmet. -/
def processItem (run_date : String) (l : Ledger) (med : String) (need : Int) :
    Ledger :=
  let w := walkBatches run_date med
    ((candidates l med run_date).map fun b => (b.batch_id, b.stock_units))
    (need : ℚ) l
  if tol < w.1 then
    { w.2 with moves := w.2.moves ++ [shortfallMove run_date med w.1] }
  else w.2

/-- Source `fefo_deduct`: process every plan item with positive daily units. -/
def fefo_deduct (l : Ledger) (run_date : String) : Ledger :=
  (plan l).foldl (fun acc p => processItem run_date acc p.1 p.2) l

/-- The unguarded body of `main`: reclamation then allocation. -/
def applyRun (l : Ledger) (run_date : String) : Ledger :=
  fefo_deduct (scrap_expired l run_date) run_date

/-- Outcome of one engine invocation. -/
inductive RunResult
  | committed
  | skipped
  deriving Repr, DecidableEq

/-- Source `main` (with the database state passed explicitly): skip when the
guard fires and `--force` is unset, otherwise scrap expired stock and apply
the FEFO deduction. -/
def run (l : Ledger) (run_date : String) (force : Bool) : RunResult × Ledger :=
  if already_ran_for l run_date && ! force then (RunResult.skipped, l)
  else (RunResult.committed, applyRun l run_date)

/-- The movements a run appended on top of the starting ledger. -/
def newMoves (l l' : Ledger) : List Movement := l'.moves.drop l.moves.length

/-- The `daily_dose` movements of a movement list carrying a given medicine. -/
def consumptionFor (med : String) (ms : List Movement) : List Movement :=
  ms.filter fun m =>
    decide (m.reason = "daily_dose") && decide (m.medicine_id = med)

/-- The `shortfall` movements of a movement list carrying a given medicine. -/
def shortfallFor (med : String) (ms : List Movement) : List Movement :=
  ms.filter fun m =>
    decide (m.reason = "shortfall") && decide (m.medicine_id = med)

/-- Aggregate stock over the eligible (positive-stock, unexpired) batches of a
medicine. -/
def aggStock (l : Ledger) (med run_date : String) : ℚ :=
  ((l.batches.filter (isCandidate med run_date)).map (·.stock_units)).sum

/-- Signed sum of the movement deltas referencing a batch id. -/
def movesSum (i : Nat) (ms : List Movement) : ℚ :=
  ((ms.filter fun m => decide (m.batch_id = some i)).map (·.qty_change)).sum

/-- Stock currently recorded for a batch id (sum over the rows carrying it;
under the primary-key invariant there is at most one such row). -/
def stockOf (l : Ledger) (i : Nat) : ℚ :=
  ((l.batches.filter fun b => decide (b.batch_id = i)).map (·.stock_units)).sum

/-! ### Order properties of the BINARY collation and the FEFO comparator -/

theorem charsLt_irrefl : ∀ l, charsLt l l = false
  | [] => rfl
  | a :: as => by simp [charsLt, charsLt_irrefl as]

theorem charsLt_trans : ∀ a b c, charsLt a b = true → charsLt b c = true →
    charsLt a c = true
  | _, b, [], _, h2 => by simp [charsLt] at h2
  | [], b, _ :: _, _, _ => by
    cases b with
    | nil => rfl
    | cons y ys => rfl
  | x :: xs, b, z :: zs, h1, h2 => by
    cases b with
    | nil => simp [charsLt] at h1
    | cons y ys =>
      simp only [charsLt, Bool.or_eq_true, Bool.and_eq_true, decide_eq_true_eq] at h1 h2 ⊢
      rcases h1 with h1 | ⟨he1, h1'⟩ <;> rcases h2 with h2 | ⟨he2, h2'⟩
      · exact Or.inl (Nat.lt_trans h1 h2)
      · exact Or.inl (he2 ▸ h1)
      · exact Or.inl (he1 ▸ h2)
      · exact Or.inr ⟨he1.trans he2, charsLt_trans xs ys zs h1' h2'⟩

theorem charsLt_eq_of_both_false : ∀ a b, charsLt a b = false → charsLt b a = false →
    a = b
  | [], [], _, _ => rfl
  | [], _ :: _, h1, _ => by simp [charsLt] at h1
  | _ :: _, [], _, h2 => by simp [charsLt] at h2
  | x :: xs, y :: ys, h1, h2 => by
    simp only [charsLt, Bool.or_eq_false_iff, Bool.and_eq_false_iff,
      decide_eq_false_iff_not] at h1 h2
    have hxy : x.toNat = y.toNat := by omega
    have hx : x = y := Char.ext (UInt32.toNat.inj hxy)
    have htl : charsLt xs ys = false := by
      rcases h1.2 with h | h
      · exact absurd hxy h
      · exact h
    have htl' : charsLt ys xs = false := by
      rcases h2.2 with h | h
      · exact absurd hxy.symm h
      · exact h
    rw [hx, charsLt_eq_of_both_false xs ys htl htl']

theorem strLt_irrefl (s : String) : strLt s s = false := charsLt_irrefl s.data

theorem strLt_trans {a b c : String} (h1 : strLt a b = true) (h2 : strLt b c = true) :
    strLt a c = true := charsLt_trans a.data b.data c.data h1 h2

theorem strLt_eq_of_both_false {a b : String} (h1 : strLt a b = false)
    (h2 : strLt b a = false) : a = b :=
  String.ext (charsLt_eq_of_both_false a.data b.data h1 h2)

theorem strLt_asymm {a b : String} (h : strLt a b = true) : strLt b a = false := by
  cases hba : strLt b a with
  | false => rfl
  | true => exact absurd (strLt_trans h hba) (by simp [strLt_irrefl a])

theorem fefoLe_total (a b : Batch) : fefoLe a b = true ∨ fefoLe b a = true := by
  simp only [fefoLe, Bool.or_eq_true, Bool.and_eq_true, decide_eq_true_eq]
  rcases Nat.lt_trichotomy (nullRank a) (nullRank b) with h | h | h
  · exact Or.inl (Or.inl h)
  · cases hab : strLt (expiryKey a) (expiryKey b) with
    | true => exact Or.inl (Or.inr ⟨h, Or.inl rfl⟩)
    | false =>
      cases hba : strLt (expiryKey b) (expiryKey a) with
      | true => exact Or.inr (Or.inr ⟨h.symm, Or.inl rfl⟩)
      | false =>
        have he : expiryKey a = expiryKey b := strLt_eq_of_both_false hab hba
        rcases Nat.le_total a.batch_id b.batch_id with hid | hid
        · exact Or.inl (Or.inr ⟨h, Or.inr ⟨he, hid⟩⟩)
        · exact Or.inr (Or.inr ⟨h.symm, Or.inr ⟨he.symm, hid⟩⟩)
  · exact Or.inr (Or.inl h)

theorem fefoLe_trans {a b c : Batch} (h1 : fefoLe a b = true) (h2 : fefoLe b c = true) :
    fefoLe a c = true := by
  simp only [fefoLe, Bool.or_eq_true, Bool.and_eq_true, decide_eq_true_eq] at h1 h2 ⊢
  rcases h1 with h1 | ⟨hn1, h1⟩ <;> rcases h2 with h2 | ⟨hn2, h2⟩
  · exact Or.inl (Nat.lt_trans h1 h2)
  · exact Or.inl (hn2 ▸ h1)
  · exact Or.inl (hn1 ▸ h2)
  · refine Or.inr ⟨hn1.trans hn2, ?_⟩
    rcases h1 with h1 | ⟨he1, h1⟩ <;> rcases h2 with h2 | ⟨he2, h2⟩
    · exact Or.inl (strLt_trans h1 h2)
    · exact Or.inl (he2 ▸ h1)
    · exact Or.inl (he1 ▸ h2)
    · exact Or.inr ⟨he1.trans he2, Nat.le_trans h1 h2⟩

instance : IsTotal Batch fun a b => fefoLe a b = true :=
  ⟨fefoLe_total⟩

instance : IsTrans Batch fun a b => fefoLe a b = true :=
  ⟨fun _ _ _ => fefoLe_trans⟩

/-! ### Closed form of the allocator's inner loop -/

/-- The `(batch_id, take)` pairs `walkBatches` deducts, in visiting order. -/
def takesFrom : List (Nat × ℚ) → ℚ → List (Nat × ℚ)
  | [], _ => []
  | (bid, stock) :: rest, remaining =>
    if remaining ≤ 0 then []
    else
      let take := min stock remaining
      if take ≤ 0 then takesFrom rest remaining
      else (bid, take) :: takesFrom rest (remaining - take)

/-- Total quantity of a take list (or of a fetched stock list). -/
def sumTakes (ts : List (Nat × ℚ)) : ℚ := (ts.map (·.2)).sum

/-- Quantity a take list removes from one batch id. -/
def takeOf (ts : List (Nat × ℚ)) (i : Nat) : ℚ :=
  ((ts.filter fun t => decide (t.1 = i)).map (·.2)).sum

theorem takeOf_nil (i : Nat) : takeOf [] i = 0 := rfl

theorem takeOf_cons (t : Nat × ℚ) (ts : List (Nat × ℚ)) (i : Nat) :
    takeOf (t :: ts) i = (if t.1 = i then t.2 else 0) + takeOf ts i := by
  by_cases h : t.1 = i <;> simp [takeOf, h]

theorem takeOf_eq_zero {ts : List (Nat × ℚ)} {i : Nat} (h : i ∉ ts.map (·.1)) :
    takeOf ts i = 0 := by
  induction ts with
  | nil => rfl
  | cons t ts ih =>
    simp only [List.map_cons, List.mem_cons] at h
    push_neg at h
    rw [takeOf_cons, if_neg (fun he => h.1 he.symm), ih h.2, add_zero]

theorem takesFrom_nonpos {cs : List (Nat × ℚ)} {r : ℚ} (h : r ≤ 0) :
    takesFrom cs r = [] := by
  cases cs with
  | nil => rfl
  | cons c rest =>
    obtain ⟨bid, stock⟩ := c
    simp [takesFrom, h]

theorem takesFrom_pos : ∀ (cs : List (Nat × ℚ)) (r : ℚ),
    ∀ t ∈ takesFrom cs r, 0 < t.2
  | [], _, t, ht => by simp [takesFrom] at ht
  | (bid, stock) :: rest, r, t, ht => by
    rw [takesFrom] at ht
    split at ht
    · simp at ht
    · dsimp only at ht
      split at ht
      · exact takesFrom_pos rest r t ht
      · rename_i hr htk
        rcases List.mem_cons.mp ht with h | h
        · rw [h]
          exact lt_of_not_le htk
        · exact takesFrom_pos rest _ t h

theorem takesFrom_ids_subset : ∀ (cs : List (Nat × ℚ)) (r : ℚ),
    ((takesFrom cs r).map (·.1)) ⊆ cs.map (·.1)
  | [], _ => by simp [takesFrom]
  | (bid, stock) :: rest, r => by
    rw [takesFrom]
    split
    · simp
    · dsimp only
      split
      · exact (takesFrom_ids_subset rest r).trans (by simp)
      · simp only [List.map_cons]
        exact List.cons_subset_cons _ (takesFrom_ids_subset rest _)

theorem takesFrom_ids_prefix : ∀ (cs : List (Nat × ℚ)) (r : ℚ),
    (∀ p ∈ cs, 0 < p.2) →
    ∃ k, (takesFrom cs r).map (·.1) = (cs.map (·.1)).take k
  | [], r, _ => ⟨0, by simp [takesFrom]⟩
  | (bid, stock) :: rest, r, hpos => by
    rw [takesFrom]
    split
    · exact ⟨0, by simp⟩
    · dsimp only
      rename_i hr
      have hstock : 0 < stock := hpos (bid, stock) (List.mem_cons_self _ _)
      have htk : ¬ min stock r ≤ 0 := by
        have : 0 < min stock r := lt_min hstock (lt_of_not_le hr)
        exact not_le.mpr this
      rw [if_neg htk]
      obtain ⟨k, hk⟩ := takesFrom_ids_prefix rest (r - min stock r)
        (fun p hp => hpos p (List.mem_cons_of_mem _ hp))
      exact ⟨k + 1, by simp [hk]⟩

theorem sumTakes_nonneg {cs : List (Nat × ℚ)} (h : ∀ p ∈ cs, 0 < p.2) :
    0 ≤ sumTakes cs := by
  apply List.sum_nonneg
  intro x hx
  obtain ⟨p, hp, rfl⟩ := List.mem_map.mp hx
  exact le_of_lt (h p hp)

theorem sumTakes_takesFrom : ∀ (cs : List (Nat × ℚ)) (r : ℚ),
    (∀ p ∈ cs, 0 < p.2) → 0 ≤ r →
    sumTakes (takesFrom cs r) = min r (sumTakes cs)
  | [], r, _, hr => by
    simp [takesFrom, sumTakes, min_eq_right hr]
  | (bid, stock) :: rest, r, hpos, hr => by
    have hstock : 0 < stock := hpos (bid, stock) (List.mem_cons_self _ _)
    have hrest : ∀ p ∈ rest, 0 < p.2 := fun p hp => hpos p (List.mem_cons_of_mem _ hp)
    have hrestsum : 0 ≤ sumTakes rest := sumTakes_nonneg hrest
    have hsc : sumTakes ((bid, stock) :: rest) = stock + sumTakes rest := by
      simp [sumTakes]
    rw [takesFrom]
    rcases le_or_lt r 0 with h0 | h0
    · rw [if_pos h0]
      have hr0 : r = 0 := le_antisymm h0 hr
      subst hr0
      have h1 : (0:ℚ) ≤ stock + sumTakes rest := add_nonneg (le_of_lt hstock) hrestsum
      rw [hsc]
      show (0:ℚ) = min 0 (stock + sumTakes rest)
      exact (min_eq_left h1).symm
    · rw [if_neg (not_le.mpr h0)]
      dsimp only
      have htk : ¬ min stock r ≤ 0 := not_le.mpr (lt_min hstock h0)
      rw [if_neg htk]
      have hsum : sumTakes ((bid, min stock r) :: takesFrom rest (r - min stock r)) =
          min stock r + sumTakes (takesFrom rest (r - min stock r)) := by
        simp [sumTakes]
      rw [hsum, sumTakes_takesFrom rest (r - min stock r) hrest
        (sub_nonneg.mpr (min_le_right _ _))]
      rw [hsc]
      rcases le_total stock r with hsr | hsr
      · rw [min_eq_left hsr]
        rcases le_total (r - stock) (sumTakes rest) with h | h
        · rw [min_eq_left h, min_eq_left (by linarith)]
          ring
        · rw [min_eq_right h, min_eq_right (by linarith)]
      · rw [min_eq_right hsr, sub_self, min_eq_left hrestsum, add_zero,
          min_eq_left (by linarith)]

theorem takeOf_nonneg {ts : List (Nat × ℚ)} (h : ∀ t ∈ ts, 0 < t.2) (i : Nat) :
    0 ≤ takeOf ts i := by
  apply List.sum_nonneg
  intro x hx
  obtain ⟨t, ht, rfl⟩ := List.mem_map.mp hx
  exact le_of_lt (h t (List.mem_filter.mp ht).1)

theorem takeOf_takesFrom_le : ∀ (cs : List (Nat × ℚ)) (r : ℚ) (bid : Nat) (stock : ℚ),
    (∀ p ∈ cs, 0 < p.2) → (cs.map (·.1)).Nodup → (bid, stock) ∈ cs →
    takeOf (takesFrom cs r) bid ≤ stock
  | [], _, _, _, _, _, hmem => by simp at hmem
  | (b0, s0) :: rest, r, bid, stock, hpos, hnd, hmem => by
    rw [List.map_cons, List.nodup_cons] at hnd
    have hb0 : b0 ∉ rest.map (·.1) := hnd.1
    have hnd' : (rest.map (·.1)).Nodup := hnd.2
    have hs0 : 0 < s0 := hpos (b0, s0) (List.mem_cons_self _ _)
    have hstock : 0 < stock := hpos (bid, stock) hmem
    have hrest : ∀ p ∈ rest, 0 < p.2 := fun p hp => hpos p (List.mem_cons_of_mem _ hp)
    rw [takesFrom]
    split
    · exact le_of_lt (by simpa [takeOf] using hstock)
    · rename_i hr
      dsimp only
      have htk : ¬ min s0 r ≤ 0 := not_le.mpr (lt_min hs0 (lt_of_not_le hr))
      rw [if_neg htk, takeOf_cons]
      by_cases hb : b0 = bid
      · subst hb
        have hsk : stock = s0 := by
          rcases List.mem_cons.mp hmem with h | h
          · cases h; rfl
          · exact absurd (List.mem_map.mpr ⟨(b0, stock), h, rfl⟩) hb0
        have hz : takeOf (takesFrom rest (r - min s0 r)) b0 = 0 :=
          takeOf_eq_zero fun hmem' => hb0 (takesFrom_ids_subset rest _ hmem')
        rw [hz, if_pos rfl, add_zero, hsk]
        exact min_le_left _ _
      · rw [if_neg hb, zero_add]
        have hmem' : (bid, stock) ∈ rest := by
          rcases List.mem_cons.mp hmem with h | h
          · exact absurd (by cases h; rfl) hb
          · exact h
        exact takeOf_takesFrom_le rest (r - min s0 r) bid stock hrest hnd' hmem'

/-- Subtracting a zero take leaves a batch unchanged. -/
theorem batch_sub_takeOf_nil (b : Batch) :
    ({ b with stock_units := b.stock_units - takeOf [] b.batch_id } : Batch) = b := by
  rw [takeOf_nil, sub_zero]

theorem map_sub_takeOf_nil (bs : List Batch) :
    (bs.map fun b => { b with stock_units := b.stock_units - takeOf [] b.batch_id }) = bs := by
  have h : (fun b : Batch =>
      { b with stock_units := b.stock_units - takeOf [] b.batch_id }) = id := by
    funext b
    exact batch_sub_takeOf_nil b
  rw [h, List.map_id]

/-- Closed form of the allocator's inner loop: the final `remaining`, the batch
updates and the appended `daily_dose` movements are all described by the take
list `takesFrom cs r`. -/
theorem walkBatches_eq (run_date med : String) :
    ∀ (cs : List (Nat × ℚ)) (r : ℚ) (l : Ledger),
      walkBatches run_date med cs r l =
        (r - sumTakes (takesFrom cs r),
          { l with
            batches := l.batches.map fun b =>
              { b with stock_units := b.stock_units - takeOf (takesFrom cs r) b.batch_id }
            moves := l.moves ++ (takesFrom cs r).map fun t =>
              consumptionMove run_date med t.1 t.2 }) := by
  intro cs
  induction cs with
  | nil =>
    intro r l
    rw [walkBatches, takesFrom]
    rw [map_sub_takeOf_nil]
    show (r, l) = (r - sumTakes [], { l with batches := l.batches, moves := l.moves ++ [] })
    rw [List.append_nil]
    show (r, l) = (r - 0, l)
    rw [sub_zero]
  | cons c rest ih =>
    intro r l
    obtain ⟨bid, stock⟩ := c
    rw [walkBatches, takesFrom]
    by_cases h0 : r ≤ 0
    · rw [if_pos h0, if_pos h0, map_sub_takeOf_nil]
      show (r, l) = (r - sumTakes [], { l with batches := l.batches, moves := l.moves ++ [] })
      rw [List.append_nil]
      show (r, l) = (r - 0, l)
      rw [sub_zero]
    · rw [if_neg h0, if_neg h0]
      dsimp only
      by_cases htk : min stock r ≤ 0
      · rw [if_pos htk, if_pos htk, ih]
      · rw [if_neg htk, if_neg htk, ih]
        refine Prod.ext ?_ ?_
        · dsimp only
          have hsum : sumTakes ((bid, min stock r) :: takesFrom rest (r - min stock r)) =
              min stock r + sumTakes (takesFrom rest (r - min stock r)) := by
            simp [sumTakes]
          rw [hsum, sub_sub]
        · dsimp only
          rw [List.map_map, List.append_assoc, List.singleton_append, List.map_cons]
          congr 1
          apply List.map_congr_left
          intro b _
          by_cases hb : b.batch_id = bid
          · simp only [Function.comp_apply, if_pos hb, takeOf_cons, sub_sub]
            rw [if_pos hb.symm]
          · simp only [Function.comp_apply, if_neg hb, takeOf_cons]
            rw [if_neg (fun h => hb h.symm), zero_add]

/-- The take list one `processItem` call performs. -/
def itemTakes (l : Ledger) (med run_date : String) (need : Int) : List (Nat × ℚ) :=
  takesFrom ((candidates l med run_date).map fun b => (b.batch_id, b.stock_units))
    ((need : Int) : ℚ)

/-- Closed form of one iteration of the allocator's outer loop. -/
theorem processItem_eq (run_date : String) (l : Ledger) (med : String) (need : Int) :
    processItem run_date l med need =
      { l with
        batches := l.batches.map fun b =>
          { b with stock_units := b.stock_units -
              takeOf (itemTakes l med run_date need) b.batch_id }
        moves := (l.moves ++ (itemTakes l med run_date need).map fun t =>
            consumptionMove run_date med t.1 t.2) ++
          (if tol < (need : ℚ) - sumTakes (itemTakes l med run_date need) then
            [shortfallMove run_date med ((need : ℚ) - sumTakes (itemTakes l med run_date need))]
          else []) } := by
  simp only [itemTakes]
  rw [processItem, walkBatches_eq]
  dsimp only
  by_cases h : tol < (need : ℚ) - sumTakes
      (takesFrom ((candidates l med run_date).map fun b => (b.batch_id, b.stock_units))
        ((need : Int) : ℚ))
  · rw [if_pos h, if_pos h]
  · rw [if_neg h, if_neg h, List.append_nil]

theorem movesSum_nil (i : Nat) : movesSum i [] = 0 := rfl

theorem movesSum_cons (i : Nat) (m : Movement) (ms : List Movement) :
    movesSum i (m :: ms) =
      (if m.batch_id = some i then m.qty_change else 0) + movesSum i ms := by
  by_cases h : m.batch_id = some i <;> simp [movesSum, h]

theorem movesSum_append (i : Nat) (ms ms' : List Movement) :
    movesSum i (ms ++ ms') = movesSum i ms + movesSum i ms' := by
  simp [movesSum, List.filter_append]

theorem movesSum_consumption (i : Nat) (d med : String) (ts : List (Nat × ℚ)) :
    movesSum i (ts.map fun t => consumptionMove d med t.1 t.2) = - takeOf ts i := by
  induction ts with
  | nil => simp [movesSum_nil, takeOf_nil]
  | cons t ts ih =>
    rw [List.map_cons, movesSum_cons, ih, takeOf_cons]
    by_cases h : t.1 = i
    · rw [if_pos h, if_pos (by simp [consumptionMove, h])]
      show -t.2 + -takeOf ts i = _
      ring
    · rw [if_neg h, if_neg (by simp [consumptionMove, h]), zero_add, zero_add]

/-! ### Generic rewriting helpers for batch lists -/

theorem filter_map_congr {bs : List Batch} {g : Batch → Batch} {p : Batch → Bool}
    (h1 : ∀ b ∈ bs, p b = true → g b = b)
    (h2 : ∀ b ∈ bs, p b = false → p (g b) = false) :
    (bs.map g).filter p = bs.filter p := by
  rw [List.filter_map]
  have he : bs.filter (p ∘ g) = bs.filter p := by
    apply List.filter_congr
    intro b hb
    cases hpb : p b with
    | true => simp [h1 b hb hpb, hpb]
    | false => simp [h2 b hb hpb, hpb]
  rw [he,
    List.map_congr_left fun b hb => h1 b (List.mem_filter.mp hb).1 (List.mem_filter.mp hb).2,
    List.map_id']

theorem filter_batch_id_eq {bs : List Batch} (hnd : (bs.map (·.batch_id)).Nodup)
    {b : Batch} (hb : b ∈ bs) :
    bs.filter (fun x => decide (x.batch_id = b.batch_id)) = [b] := by
  induction bs with
  | nil => cases hb
  | cons a rest ih =>
    rw [List.map_cons, List.nodup_cons] at hnd
    rcases List.mem_cons.mp hb with rfl | hmem
    · rw [List.filter_cons_of_pos (by simp)]
      have hrest : rest.filter (fun x => decide (x.batch_id = b.batch_id)) = [] := by
        rw [List.filter_eq_nil_iff]
        intro x hx
        simp only [decide_eq_true_eq]
        intro hxe
        exact hnd.1 (List.mem_map.mpr ⟨x, hx, hxe⟩)
      rw [hrest]
    · have hne : ¬ a.batch_id = b.batch_id := by
        intro he
        exact hnd.1 (List.mem_map.mpr ⟨b, hmem, he.symm⟩)
      rw [List.filter_cons_of_neg (by simpa using hne), ih hnd.2 hmem]

/-! ### Properties of the expiry reclaimer -/

/-- Batch ids collected into the `_to_scrap` temp table. -/
def scrapIds (l : Ledger) (run_date : String) : List Nat :=
  (l.batches.filter (isScrapCandidate run_date)).map (·.batch_id)

/-- The `expired` movements one reclamation run appends. -/
def scrapMoves (l : Ledger) (run_date : String) : List Movement :=
  ((l.batches.filter (isScrapCandidate run_date)).filter fun b =>
    decide (0 < b.stock_units)).map (expiredMove run_date)

theorem scrap_expired_moves (l : Ledger) (d : String) :
    (scrap_expired l d).moves = l.moves ++ scrapMoves l d := rfl

theorem scrap_expired_batches (l : Ledger) (d : String) :
    (scrap_expired l d).batches = l.batches.map fun b =>
      if b.batch_id ∈ scrapIds l d then { b with stock_units := 0 } else b := rfl

theorem scrap_expired_dosage (l : Ledger) (d : String) :
    (scrap_expired l d).daily_dosage = l.daily_dosage := rfl

theorem scrap_expired_medicines (l : Ledger) (d : String) :
    (scrap_expired l d).medicines = l.medicines := rfl

theorem plan_scrap (l : Ledger) (d : String) : plan (scrap_expired l d) = plan l := rfl

theorem scrapMoves_eq (l : Ledger) (d : String) :
    scrapMoves l d = (l.batches.filter (isScrapCandidate d)).map (expiredMove d) := by
  unfold scrapMoves
  congr 1
  rw [List.filter_eq_self]
  intro b hb
  have h := (List.mem_filter.mp hb).2
  rw [isScrapCandidate, Bool.and_eq_true] at h
  exact h.1

theorem scrapMoves_reason {l : Ledger} {d : String} {mv : Movement}
    (h : mv ∈ scrapMoves l d) : mv.reason = "expired" ∧ mv.ts = log_ts d := by
  rw [scrapMoves_eq] at h
  obtain ⟨b, _, rfl⟩ := List.mem_map.mp h
  exact ⟨rfl, rfl⟩

theorem scrap_expired_ids (l : Ledger) (d : String) :
    (scrap_expired l d).batches.map (·.batch_id) = l.batches.map (·.batch_id) := by
  rw [scrap_expired_batches, List.map_map]
  apply List.map_congr_left
  intro b _
  by_cases h : b.batch_id ∈ scrapIds l d <;> simp [Function.comp, h]

theorem not_scrap_of_candidate {med d : String} {b : Batch}
    (h : isCandidate med d b = true) : isScrapCandidate d b = false := by
  cases hexp : b.expiry_date with
  | none => simp [isScrapCandidate, hexp]
  | some e =>
    have hle : strLe (dateOf d) (dateOf e) = true := by
      simp only [isCandidate, hexp, Bool.and_eq_true] at h
      exact h.2
    have hlt : strLt (dateOf e) (dateOf d) = false := by
      simpa [strLe, Bool.not_eq_true'] using hle
    simp [isScrapCandidate, hexp, hlt]

theorem scrap_filter_candidates (l : Ledger) (d med : String)
    (hnd : (l.batches.map (·.batch_id)).Nodup) :
    (scrap_expired l d).batches.filter (isCandidate med d) =
      l.batches.filter (isCandidate med d) := by
  rw [scrap_expired_batches]
  apply filter_map_congr
  · intro b hb hpb
    have hns := not_scrap_of_candidate hpb
    have hnotmem : b.batch_id ∉ scrapIds l d := by
      intro hc
      obtain ⟨b', hb', hbe⟩ := List.mem_map.mp hc
      have hb'scrap : isScrapCandidate d b' = true := (List.mem_filter.mp hb').2
      have hbb : b' = b :=
        List.inj_on_of_nodup_map hnd (List.mem_filter.mp hb').1 hb hbe
      rw [hbb, hns] at hb'scrap
      cases hb'scrap
    rw [if_neg hnotmem]
  · intro b hb hpb
    by_cases hc : b.batch_id ∈ scrapIds l d
    · rw [if_pos hc]
      have h0 : decide ((0:ℚ) < (0:ℚ)) = false := decide_eq_false (lt_irrefl 0)
      simp [isCandidate, h0]
    · rw [if_neg hc]
      exact hpb

theorem candidates_scrap (l : Ledger) (d med : String)
    (hnd : (l.batches.map (·.batch_id)).Nodup) :
    candidates (scrap_expired l d) med d = candidates l med d := by
  unfold candidates
  rw [scrap_filter_candidates l d med hnd]

theorem aggStock_scrap (l : Ledger) (d med : String)
    (hnd : (l.batches.map (·.batch_id)).Nodup) :
    aggStock (scrap_expired l d) med d = aggStock l med d := by
  unfold aggStock
  rw [scrap_filter_candidates l d med hnd]

/-! ### Frame properties of one plan-item iteration and of the outer fold -/

theorem mem_candidates {l : Ledger} {med d : String} {b : Batch} :
    b ∈ candidates l med d ↔ b ∈ l.batches ∧ isCandidate med d b = true := by
  unfold candidates
  rw [(List.perm_insertionSort _ _).mem_iff, List.mem_filter]

theorem candidate_medicine {med d : String} {b : Batch}
    (h : isCandidate med d b = true) : b.medicine_id = med := by
  simp only [isCandidate, Bool.and_eq_true, decide_eq_true_eq] at h
  exact h.1.1

theorem candidate_stock_pos {med d : String} {b : Batch}
    (h : isCandidate med d b = true) : 0 < b.stock_units := by
  simp only [isCandidate, Bool.and_eq_true, decide_eq_true_eq] at h
  exact h.1.2

theorem itemTakes_ids_sub (l : Ledger) (med d : String) (need : Int) :
    ∀ i ∈ (itemTakes l med d need).map (·.1),
      ∃ b ∈ l.batches, b.batch_id = i ∧ b.medicine_id = med := by
  intro i hi
  have hsub := takesFrom_ids_subset
    ((candidates l med d).map fun b => (b.batch_id, b.stock_units)) ((need : Int) : ℚ) hi
  rw [List.map_map] at hsub
  obtain ⟨b, hb, rfl⟩ := List.mem_map.mp hsub
  obtain ⟨hbl, hbc⟩ := mem_candidates.mp hb
  exact ⟨b, hbl, rfl, candidate_medicine hbc⟩

theorem processItem_fix {d m' : String} {n : Int} {l : Ledger}
    (hnd : (l.batches.map (·.batch_id)).Nodup)
    {b : Batch} (hb : b ∈ l.batches) (hm : b.medicine_id ≠ m') :
    takeOf (itemTakes l m' d n) b.batch_id = 0 := by
  apply takeOf_eq_zero
  intro hmem
  obtain ⟨b', hb', hbe, hbm⟩ := itemTakes_ids_sub l m' d n _ hmem
  have hbb : b' = b := List.inj_on_of_nodup_map hnd hb' hb hbe
  exact hm (hbb ▸ hbm)

theorem processItem_ids (d : String) (l : Ledger) (m : String) (n : Int) :
    (processItem d l m n).batches.map (·.batch_id) = l.batches.map (·.batch_id) := by
  rw [processItem_eq, List.map_map]
  rfl

theorem processItem_dosage (d : String) (l : Ledger) (m : String) (n : Int) :
    (processItem d l m n).daily_dosage = l.daily_dosage := by
  rw [processItem_eq]

theorem processItem_filter_pres {d m' med : String} {n : Int} {l : Ledger} {p : Batch → Bool}
    (hp : ∀ b, p b = true → b.medicine_id = med)
    (hne : m' ≠ med)
    (hnd : (l.batches.map (·.batch_id)).Nodup) :
    (processItem d l m' n).batches.filter p = l.batches.filter p := by
  rw [processItem_eq]
  apply filter_map_congr
  · intro b hb hpb
    have hz : takeOf (itemTakes l m' d n) b.batch_id = 0 :=
      processItem_fix hnd hb fun h => hne (h.symm.trans (hp b hpb))
    rw [hz, sub_zero]
  · intro b hb hpb
    by_cases hbm : b.medicine_id = med
    · have hz : takeOf (itemTakes l m' d n) b.batch_id = 0 :=
        processItem_fix hnd hb fun h => hne (h.symm.trans hbm)
      rw [hz, sub_zero]
      exact hpb
    · by_contra hgb
      rw [Bool.not_eq_false] at hgb
      exact absurd (hp _ hgb) hbm

theorem foldl_processItem_ids (d : String) :
    ∀ (ps : List (String × Int)) (l : Ledger),
      ((ps.foldl (fun acc q => processItem d acc q.1 q.2) l).batches.map (·.batch_id)) =
        l.batches.map (·.batch_id)
  | [], _ => rfl
  | q :: ps, l => by
    rw [List.foldl_cons, foldl_processItem_ids d ps _, processItem_ids]

theorem foldl_processItem_filter {d med : String} {p : Batch → Bool}
    (hp : ∀ b, p b = true → b.medicine_id = med) :
    ∀ (ps : List (String × Int)) (l : Ledger),
      (l.batches.map (·.batch_id)).Nodup → med ∉ ps.map (·.1) →
      ((ps.foldl (fun acc q => processItem d acc q.1 q.2) l).batches.filter p =
        l.batches.filter p)
  | [], _, _, _ => rfl
  | q :: ps, l, hnd, hmem => by
    rw [List.map_cons, List.mem_cons] at hmem
    push_neg at hmem
    have hq : q.1 ≠ med := fun h => hmem.1 h.symm
    have hnd' : ((processItem d l q.1 q.2).batches.map (·.batch_id)).Nodup := by
      rw [processItem_ids]
      exact hnd
    rw [List.foldl_cons, foldl_processItem_filter hp ps _ hnd' hmem.2,
      processItem_filter_pres hp hq hnd]

theorem foldl_processItem_moves (d : String) :
    ∀ (ps : List (String × Int)) (l : Ledger),
      ∃ ms, ((ps.foldl (fun acc q => processItem d acc q.1 q.2) l).moves = l.moves ++ ms) ∧
        ∀ mv ∈ ms, mv.medicine_id ∈ ps.map (·.1) ∧ mv.ts = log_ts d ∧
          (mv.reason = "daily_dose" ∨
            (mv.reason = "shortfall" ∧ mv.qty_change = 0 ∧ mv.batch_id = none))
  | [], l => ⟨[], by simp, by simp⟩
  | q :: ps, l => by
    obtain ⟨ms, hms, hprop⟩ := foldl_processItem_moves d ps (processItem d l q.1 q.2)
    refine ⟨((itemTakes l q.1 d q.2).map fun t => consumptionMove d q.1 t.1 t.2) ++
      (if tol < ((q.2 : Int) : ℚ) - sumTakes (itemTakes l q.1 d q.2) then
        [shortfallMove d q.1 (((q.2 : Int) : ℚ) - sumTakes (itemTakes l q.1 d q.2))]
      else []) ++ ms, ?_, ?_⟩
    · rw [List.foldl_cons, hms, processItem_eq]
      simp [List.append_assoc]
    · intro mv hmv
      simp only [List.append_assoc, List.mem_append] at hmv
      rcases hmv with hmv | hmv | hmv
      · obtain ⟨t, _, rfl⟩ := List.mem_map.mp hmv
        exact ⟨by simp [consumptionMove], rfl, Or.inl rfl⟩
      · have : mv = shortfallMove d q.1 (((q.2 : Int) : ℚ) - sumTakes (itemTakes l q.1 d q.2)) := by
          split at hmv
          · simpa using hmv
          · simp at hmv
        rw [this]
        exact ⟨by simp [shortfallMove], rfl, Or.inr ⟨rfl, rfl, rfl⟩⟩
      · obtain ⟨h1, h2, h3⟩ := hprop mv hmv
        exact ⟨by simp [h1], h2, h3⟩

/-! ### The engine's effect on one plan item -/

theorem plan_meds_nodup {l : Ledger}
    (hdd : (l.daily_dosage.map (·.medicine_id)).Nodup) :
    ((plan l).map (·.1)).Nodup := by
  have hsub : ((plan l).map (·.1)).Sublist ((v_daily_units l).map (·.1)) :=
    (List.filter_sublist _).map _
  have hvd : (v_daily_units l).map (·.1) = l.daily_dosage.map (·.medicine_id) := by
    unfold v_daily_units
    rw [List.map_map]
    rfl
  exact List.Nodup.sublist hsub (hvd ▸ hdd)

theorem consumptionFor_append (med : String) (ms ms' : List Movement) :
    consumptionFor med (ms ++ ms') = consumptionFor med ms ++ consumptionFor med ms' :=
  List.filter_append _ _

theorem shortfallFor_append (med : String) (ms ms' : List Movement) :
    shortfallFor med (ms ++ ms') = shortfallFor med ms ++ shortfallFor med ms' :=
  List.filter_append _ _

theorem consumptionFor_eq_nil {med : String} {ms : List Movement}
    (h : ∀ mv ∈ ms, ¬ mv.reason = "daily_dose" ∨ ¬ mv.medicine_id = med) :
    consumptionFor med ms = [] := by
  rw [consumptionFor, List.filter_eq_nil_iff]
  intro mv hmv
  simp only [Bool.and_eq_true, decide_eq_true_eq, not_and]
  intro hr
  rcases h mv hmv with hc | hc
  · exact absurd hr hc
  · exact hc

theorem shortfallFor_eq_nil {med : String} {ms : List Movement}
    (h : ∀ mv ∈ ms, ¬ mv.reason = "shortfall" ∨ ¬ mv.medicine_id = med) :
    shortfallFor med ms = [] := by
  rw [shortfallFor, List.filter_eq_nil_iff]
  intro mv hmv
  simp only [Bool.and_eq_true, decide_eq_true_eq, not_and]
  intro hr
  rcases h mv hmv with hc | hc
  · exact absurd hr hc
  · exact hc

theorem itemTakes_congr {l l' : Ledger} {med d : String} (need : Int)
    (h : candidates l med d = candidates l' med d) :
    itemTakes l med d need = itemTakes l' med d need := by
  unfold itemTakes
  rw [h]

/-- What one full unguarded run does to a single plan item: its consumption
movements are exactly the FEFO take list computed on the pre-run eligible
batches, and its shortfall movement appears iff more than the tolerance
remains unmet. -/
theorem applyRun_item_spec (l : Ledger) (d med : String) (need : Int)
    (hids : (l.batches.map (·.batch_id)).Nodup)
    (hdd : (l.daily_dosage.map (·.medicine_id)).Nodup)
    (hmem : (med, need) ∈ plan l) :
    consumptionFor med (newMoves l (applyRun l d)) =
      ((itemTakes l med d need).map fun t => consumptionMove d med t.1 t.2) ∧
    shortfallFor med (newMoves l (applyRun l d)) =
      (if tol < (need : ℚ) - sumTakes (itemTakes l med d need) then
        [shortfallMove d med ((need : ℚ) - sumTakes (itemTakes l med d need))] else []) := by
  obtain ⟨ps1, ps2, hsplit⟩ := List.append_of_mem hmem
  have hplannd := plan_meds_nodup hdd
  rw [hsplit, List.map_append, List.map_cons] at hplannd
  have hps1 : med ∉ ps1.map (·.1) := by
    have hdisj := (List.nodup_append.mp hplannd).2.2
    intro hc
    exact hdisj hc (List.mem_cons_self _ _)
  have hps2 : med ∉ ps2.map (·.1) := by
    have := (List.nodup_append.mp hplannd).2.1
    exact (List.nodup_cons.mp this).1
  -- the fold decomposed at the item's turn
  have hids' : ((scrap_expired l d).batches.map (·.batch_id)).Nodup := by
    rw [scrap_expired_ids]
    exact hids
  have happly : applyRun l d =
      ps2.foldl (fun acc q => processItem d acc q.1 q.2)
        (processItem d
          (ps1.foldl (fun acc q => processItem d acc q.1 q.2) (scrap_expired l d)) med need) := by
    rw [applyRun, fefo_deduct, plan_scrap, hsplit, List.foldl_append, List.foldl_cons]
  set L1 := ps1.foldl (fun acc q => processItem d acc q.1 q.2) (scrap_expired l d) with hL1
  have hL1ids : (L1.batches.map (·.batch_id)).Nodup := by
    rw [hL1, foldl_processItem_ids]
    exact hids'
  have hL1cand : candidates L1 med d = candidates l med d := by
    unfold candidates
    rw [hL1, foldl_processItem_filter (fun b => candidate_medicine) ps1 _ hids' hps1,
      scrap_filter_candidates l d med hids]
  have htakes : itemTakes L1 med d need = itemTakes l med d need :=
    itemTakes_congr need hL1cand
  obtain ⟨ms1, hms1, hprop1⟩ := foldl_processItem_moves d ps1 (scrap_expired l d)
  obtain ⟨ms2, hms2, hprop2⟩ := foldl_processItem_moves d ps2 (processItem d L1 med need)
  have hmoves : (applyRun l d).moves =
      l.moves ++ (scrapMoves l d ++ (ms1 ++
        (((itemTakes l med d need).map fun t => consumptionMove d med t.1 t.2) ++
          ((if tol < (need : ℚ) - sumTakes (itemTakes l med d need) then
            [shortfallMove d med ((need : ℚ) - sumTakes (itemTakes l med d need))] else []) ++
            ms2)))) := by
    rw [happly, hms2, processItem_eq]
    show (L1.moves ++ _) ++ _ ++ ms2 = _
    rw [htakes, hL1, hms1, scrap_expired_moves]
    simp only [List.append_assoc]
  have hnew : newMoves l (applyRun l d) =
      scrapMoves l d ++ (ms1 ++
        (((itemTakes l med d need).map fun t => consumptionMove d med t.1 t.2) ++
          ((if tol < (need : ℚ) - sumTakes (itemTakes l med d need) then
            [shortfallMove d med ((need : ℚ) - sumTakes (itemTakes l med d need))] else []) ++
            ms2))) := by
    rw [newMoves, hmoves, List.drop_left]
  have hms1ne : ∀ mv ∈ ms1, ¬ mv.medicine_id = med := by
    intro mv hmv hc
    exact hps1 (hc ▸ (hprop1 mv hmv).1)
  have hms2ne : ∀ mv ∈ ms2, ¬ mv.medicine_id = med := by
    intro mv hmv hc
    exact hps2 (hc ▸ (hprop2 mv hmv).1)
  have hscrapC : consumptionFor med (scrapMoves l d) = [] :=
    consumptionFor_eq_nil fun mv hmv => Or.inl (by rw [(scrapMoves_reason hmv).1]; decide)
  have hms1C : consumptionFor med ms1 = [] :=
    consumptionFor_eq_nil fun mv hmv => Or.inr (hms1ne mv hmv)
  have hms2C : consumptionFor med ms2 = [] :=
    consumptionFor_eq_nil fun mv hmv => Or.inr (hms2ne mv hmv)
  have hsfC : consumptionFor med
      (if tol < (need : ℚ) - sumTakes (itemTakes l med d need) then
        [shortfallMove d med ((need : ℚ) - sumTakes (itemTakes l med d need))] else []) = [] := by
    apply consumptionFor_eq_nil
    intro mv hmv
    split at hmv
    · have hm : mv = shortfallMove d med ((need : ℚ) - sumTakes (itemTakes l med d need)) := by
        simpa using hmv
      exact Or.inl (by rw [hm]; simp [shortfallMove])
    · simp at hmv
  have hconsC : consumptionFor med
      ((itemTakes l med d need).map fun t => consumptionMove d med t.1 t.2) =
      ((itemTakes l med d need).map fun t => consumptionMove d med t.1 t.2) := by
    apply List.filter_eq_self.mpr
    intro mv hmv
    obtain ⟨t, _, rfl⟩ := List.mem_map.mp hmv
    simp [consumptionMove]
  have hscrapS : shortfallFor med (scrapMoves l d) = [] :=
    shortfallFor_eq_nil fun mv hmv => Or.inl (by rw [(scrapMoves_reason hmv).1]; decide)
  have hms1S : shortfallFor med ms1 = [] :=
    shortfallFor_eq_nil fun mv hmv => Or.inr (hms1ne mv hmv)
  have hms2S : shortfallFor med ms2 = [] :=
    shortfallFor_eq_nil fun mv hmv => Or.inr (hms2ne mv hmv)
  have hconsS : shortfallFor med
      ((itemTakes l med d need).map fun t => consumptionMove d med t.1 t.2) = [] := by
    apply shortfallFor_eq_nil
    intro mv hmv
    obtain ⟨t, _, rfl⟩ := List.mem_map.mp hmv
    exact Or.inl (by simp [consumptionMove])
  have hsfS : shortfallFor med
      (if tol < (need : ℚ) - sumTakes (itemTakes l med d need) then
        [shortfallMove d med ((need : ℚ) - sumTakes (itemTakes l med d need))] else []) =
      (if tol < (need : ℚ) - sumTakes (itemTakes l med d need) then
        [shortfallMove d med ((need : ℚ) - sumTakes (itemTakes l med d need))] else []) := by
    split
    · apply List.filter_eq_self.mpr
      intro mv hmv
      have hm : mv = shortfallMove d med ((need : ℚ) - sumTakes (itemTakes l med d need)) := by
        simpa using hmv
      rw [hm]
      simp [shortfallMove]
    · rfl
  constructor
  · rw [hnew, consumptionFor_append, consumptionFor_append, consumptionFor_append,
      consumptionFor_append, hscrapC, hms1C, hms2C, hsfC, hconsC]
    simp
  · rw [hnew, shortfallFor_append, shortfallFor_append, shortfallFor_append,
      shortfallFor_append, hscrapS, hms1S, hms2S, hconsS, hsfS]
    simp

/-! ### Aggregate-stock bookkeeping of one item -/

theorem candidates_ids_nodup {l : Ledger} {med d : String}
    (hnd : (l.batches.map (·.batch_id)).Nodup) :
    ((candidates l med d).map (·.batch_id)).Nodup := by
  have hperm : (candidates l med d).Perm (l.batches.filter (isCandidate med d)) :=
    List.perm_insertionSort _ _
  have h1 : ((l.batches.filter (isCandidate med d)).map (·.batch_id)).Nodup :=
    List.Nodup.sublist ((List.filter_sublist _).map _) hnd
  exact ((hperm.map _).nodup_iff).mpr h1

theorem candidates_pairs_pos (l : Ledger) (med d : String) :
    ∀ p ∈ (candidates l med d).map fun b => (b.batch_id, b.stock_units), 0 < p.2 := by
  intro p hp
  obtain ⟨b, hb, rfl⟩ := List.mem_map.mp hp
  exact candidate_stock_pos (mem_candidates.mp hb).2

theorem sumTakes_candidates (l : Ledger) (med d : String) :
    sumTakes ((candidates l med d).map fun b => (b.batch_id, b.stock_units)) =
      aggStock l med d := by
  unfold sumTakes aggStock
  rw [List.map_map]
  exact List.Perm.sum_eq ((List.perm_insertionSort _ _).map _)

theorem sumTakes_itemTakes (l : Ledger) (med d : String) (need : Int)
    (h0 : 0 ≤ ((need : Int) : ℚ)) :
    sumTakes (itemTakes l med d need) = min ((need : Int) : ℚ) (aggStock l med d) := by
  unfold itemTakes
  rw [sumTakes_takesFrom _ _ (candidates_pairs_pos l med d) h0, sumTakes_candidates]

theorem itemTakes_ids_prefix (l : Ledger) (med d : String) (need : Int) :
    ∃ k, (itemTakes l med d need).map (·.1) =
      ((candidates l med d).map (·.batch_id)).take k := by
  unfold itemTakes
  obtain ⟨k, hk⟩ := takesFrom_ids_prefix
    ((candidates l med d).map fun b => (b.batch_id, b.stock_units)) ((need : Int) : ℚ)
    (candidates_pairs_pos l med d)
  rw [List.map_map] at hk
  exact ⟨k, hk⟩

theorem itemTakes_pos (l : Ledger) (med d : String) (need : Int) :
    ∀ t ∈ itemTakes l med d need, 0 < t.2 :=
  takesFrom_pos _ _

/-! ### The reconciliation invariant -/

/-- Per-batch reconciliation: every batch's stock is non-negative and equals
its original stock (`base`, indexed by batch id) plus the signed sum of the
movements referencing it. -/
def Reconciled (base : Nat → ℚ) (l : Ledger) : Prop :=
  ∀ b ∈ l.batches, 0 ≤ b.stock_units ∧
    b.stock_units = base b.batch_id + movesSum b.batch_id l.moves

theorem movesSum_expired (i : Nat) (d : String) (bs : List Batch) :
    movesSum i (bs.map (expiredMove d)) =
      - ((bs.filter fun b => decide (b.batch_id = i)).map (·.stock_units)).sum := by
  induction bs with
  | nil => simp [movesSum_nil]
  | cons b bs ih =>
    rw [List.map_cons, movesSum_cons, ih]
    by_cases h : b.batch_id = i
    · rw [if_pos (by simp [expiredMove, h]), List.filter_cons_of_pos (by simp [h])]
      show (expiredMove d b).qty_change + _ = _
      show -b.stock_units + _ = _
      rw [List.map_cons, List.sum_cons]
      ring
    · rw [if_neg (by simp [expiredMove, h]), List.filter_cons_of_neg (by simp [h]), zero_add]

theorem movesSum_scrapMoves_of_scrapped {l : Ledger} {d : String} {b : Batch}
    (hnd : (l.batches.map (·.batch_id)).Nodup) (hb : b ∈ l.batches)
    (hscrap : isScrapCandidate d b = true) :
    movesSum b.batch_id (scrapMoves l d) = - b.stock_units := by
  rw [scrapMoves_eq, movesSum_expired, List.filter_comm,
    filter_batch_id_eq hnd hb, List.filter_cons_of_pos hscrap]
  simp

theorem movesSum_scrapMoves_of_not_mem {l : Ledger} {d : String} {i : Nat}
    (hc : i ∉ scrapIds l d) :
    movesSum i (scrapMoves l d) = 0 := by
  rw [scrapMoves_eq, movesSum_expired]
  have hnil : (l.batches.filter (isScrapCandidate d)).filter
      (fun b => decide (b.batch_id = i)) = [] := by
    rw [List.filter_eq_nil_iff]
    intro x hx
    simp only [decide_eq_true_eq]
    intro hxe
    exact hc (hxe ▸ List.mem_map.mpr ⟨x, hx, rfl⟩)
  rw [hnil]
  simp

theorem scrap_reconciled {base : Nat → ℚ} {l : Ledger} {d : String}
    (hnd : (l.batches.map (·.batch_id)).Nodup)
    (hinv : Reconciled base l) : Reconciled base (scrap_expired l d) := by
  intro b' hb'
  rw [scrap_expired_batches] at hb'
  obtain ⟨b, hb, rfl⟩ := List.mem_map.mp hb'
  obtain ⟨hpos, heq⟩ := hinv b hb
  by_cases hc : b.batch_id ∈ scrapIds l d
  · have hbscrap : isScrapCandidate d b = true := by
      obtain ⟨b'', hb'', hbe⟩ := List.mem_map.mp hc
      have hbb : b'' = b :=
        List.inj_on_of_nodup_map hnd (List.mem_filter.mp hb'').1 hb hbe
      exact hbb ▸ (List.mem_filter.mp hb'').2
    rw [if_pos hc]
    refine ⟨le_refl 0, ?_⟩
    show (0:ℚ) = base b.batch_id + movesSum b.batch_id (scrap_expired l d).moves
    rw [scrap_expired_moves, movesSum_append,
      movesSum_scrapMoves_of_scrapped hnd hb hbscrap]
    linarith [heq]
  · rw [if_neg hc]
    refine ⟨hpos, ?_⟩
    rw [scrap_expired_moves, movesSum_append, movesSum_scrapMoves_of_not_mem hc,
      add_zero]
    exact heq

theorem movesSum_shortfallOpt (i : Nat) (c : Prop) [Decidable c] (d med : String) (q : ℚ) :
    movesSum i (if c then [shortfallMove d med q] else []) = 0 := by
  split
  · rw [movesSum_cons, if_neg (by simp [shortfallMove]), movesSum_nil, zero_add]
  · rfl

theorem processItem_reconciled {base : Nat → ℚ} {l : Ledger} {d med : String} {need : Int}
    (hnd : (l.batches.map (·.batch_id)).Nodup)
    (hinv : Reconciled base l) : Reconciled base (processItem d l med need) := by
  intro b' hb'
  rw [processItem_eq] at hb'
  obtain ⟨b, hb, rfl⟩ := List.mem_map.mp hb'
  obtain ⟨hpos, heq⟩ := hinv b hb
  have htake_le : takeOf (itemTakes l med d need) b.batch_id ≤ b.stock_units := by
    by_cases hmem : b.batch_id ∈ (itemTakes l med d need).map (·.1)
    · have hsub := takesFrom_ids_subset
        ((candidates l med d).map fun x => (x.batch_id, x.stock_units))
        ((need : Int) : ℚ) hmem
      rw [List.map_map] at hsub
      obtain ⟨bc, hbc, hbce⟩ := List.mem_map.mp hsub
      have hbcb : bc = b :=
        List.inj_on_of_nodup_map hnd (mem_candidates.mp hbc).1 hb hbce
      exact takeOf_takesFrom_le _ _ _ _ (candidates_pairs_pos l med d)
        (by rw [List.map_map]; exact candidates_ids_nodup hnd)
        (List.mem_map.mpr ⟨bc, hbc, by rw [hbcb]⟩)
    · rw [takeOf_eq_zero hmem]
      exact hpos
  refine ⟨by simpa using sub_nonneg.mpr htake_le, ?_⟩
  show b.stock_units - takeOf (itemTakes l med d need) b.batch_id =
    base b.batch_id + movesSum b.batch_id (processItem d l med need).moves
  rw [processItem_eq]
  show _ = base b.batch_id + movesSum b.batch_id ((l.moves ++ _) ++ _)
  rw [movesSum_append, movesSum_append, movesSum_consumption,
    movesSum_shortfallOpt, heq]
  ring

theorem foldl_processItem_reconciled {base : Nat → ℚ} {d : String} :
    ∀ (ps : List (String × Int)) (l : Ledger),
      (l.batches.map (·.batch_id)).Nodup → Reconciled base l →
      Reconciled base (ps.foldl (fun acc q => processItem d acc q.1 q.2) l)
  | [], _, _, hinv => hinv
  | q :: ps, l, hnd, hinv => by
    rw [List.foldl_cons]
    exact foldl_processItem_reconciled ps _
      (by rw [processItem_ids]; exact hnd)
      (processItem_reconciled hnd hinv)

/-! ### Run-level helpers -/

theorem run_commits {l : Ledger} {d : String} {force : Bool}
    (hguard : already_ran_for l d = false ∨ force = true) :
    run l d force = (RunResult.committed, applyRun l d) := by
  unfold run
  rcases hguard with h | h
  · rw [h]
    simp
  · rw [h]
    simp

theorem plan_need_pos {l : Ledger} {med : String} {need : Int}
    (h : (med, need) ∈ plan l) : 0 < need := by
  have h2 := (List.mem_filter.mp h).2
  simpa using h2

theorem tol_pos : 0 < tol := by norm_num [tol]

theorem sum_map_neg_snd (ts : List (Nat × ℚ)) :
    (ts.map fun t => -t.2).sum = - sumTakes ts := by
  unfold sumTakes
  induction ts with
  | nil => simp
  | cons t ts ih =>
    simp only [List.map_cons, List.sum_cons, ih]
    ring

theorem applyRun_newMoves (l : Ledger) (d : String) :
    ∃ ms, newMoves l (applyRun l d) = scrapMoves l d ++ ms ∧
      ∀ mv ∈ ms, mv.ts = log_ts d ∧
        (mv.reason = "daily_dose" ∨
          (mv.reason = "shortfall" ∧ mv.qty_change = 0 ∧ mv.batch_id = none)) := by
  obtain ⟨ms, hms, hprop⟩ :=
    foldl_processItem_moves d (plan (scrap_expired l d)) (scrap_expired l d)
  refine ⟨ms, ?_, fun mv hmv => ⟨(hprop mv hmv).2.1, (hprop mv hmv).2.2⟩⟩
  rw [newMoves, applyRun, fefo_deduct, hms, scrap_expired_moves, List.append_assoc,
    List.drop_left]

theorem consumption_sum_core (l : Ledger) (d med : String) (need : Int)
    (hids : (l.batches.map (·.batch_id)).Nodup)
    (hdd : (l.daily_dosage.map (·.medicine_id)).Nodup)
    (hmem : (med, need) ∈ plan l)
    (hagg : ((need : Int) : ℚ) ≤ aggStock l med d) :
    ((consumptionFor med (newMoves l (applyRun l d))).map (·.qty_change)).sum =
      -((need : Int) : ℚ) := by
  obtain ⟨hcons, _⟩ := applyRun_item_spec l d med need hids hdd hmem
  rw [hcons, List.map_map]
  have h1 : ((itemTakes l med d need).map
      ((fun mv => mv.qty_change) ∘ fun t => consumptionMove d med t.1 t.2)).sum =
      - sumTakes (itemTakes l med d need) :=
    sum_map_neg_snd (itemTakes l med d need)
  rw [h1, sumTakes_itemTakes l med d need
    (by exact_mod_cast le_of_lt (plan_need_pos hmem)), min_eq_left hagg]

theorem stockOf_eq {l : Ledger} {b : Batch}
    (hnd : (l.batches.map (·.batch_id)).Nodup) (hb : b ∈ l.batches) :
    stockOf l b.batch_id = b.stock_units := by
  rw [stockOf, filter_batch_id_eq hnd hb]
  simp

theorem scrap_filter_id (l : Ledger) (d : String) (i : Nat) :
    (scrap_expired l d).batches.filter (fun b => decide (b.batch_id = i)) =
      (l.batches.filter fun b => decide (b.batch_id = i)).map
        (fun b => if b.batch_id ∈ scrapIds l d then { b with stock_units := 0 } else b) := by
  rw [scrap_expired_batches, List.filter_map]
  congr 1
  apply List.filter_congr
  intro b _
  by_cases h : b.batch_id ∈ scrapIds l d <;> simp [h]

theorem scrapMoves_filter_id (l : Ledger) (d : String) (i : Nat) :
    (scrapMoves l d).filter (fun mv => decide (mv.batch_id = some i)) =
      ((l.batches.filter (isScrapCandidate d)).filter fun b => decide (b.batch_id = i)).map
        (expiredMove d) := by
  rw [scrapMoves_eq, List.filter_map]
  congr 1
  apply List.filter_congr
  intro b _
  simp [expiredMove]

theorem newMoves_scrap (l : Ledger) (d : String) :
    newMoves l (scrap_expired l d) = scrapMoves l d := by
  rw [newMoves, scrap_expired_moves, List.drop_left]

theorem mem_scrapIds_iff {l : Ledger} {d : String} {b : Batch}
    (hnd : (l.batches.map (·.batch_id)).Nodup) (hb : b ∈ l.batches) :
    b.batch_id ∈ scrapIds l d ↔ isScrapCandidate d b = true := by
  constructor
  · intro hc
    obtain ⟨b', hb', hbe⟩ := List.mem_map.mp hc
    have hbb : b' = b :=
      List.inj_on_of_nodup_map hnd (List.mem_filter.mp hb').1 hb hbe
    exact hbb ▸ (List.mem_filter.mp hb').2
  · intro hs
    exact List.mem_map.mpr ⟨b, List.mem_filter.mpr ⟨hb, hs⟩, rfl⟩

theorem scrap_moves_filter_of_not {l : Ledger} {d : String} {b : Batch}
    (hnd : (l.batches.map (·.batch_id)).Nodup) (hb : b ∈ l.batches)
    (hns : isScrapCandidate d b = false) :
    (newMoves l (scrap_expired l d)).filter
      (fun mv => decide (mv.batch_id = some b.batch_id)) = [] := by
  rw [newMoves_scrap, scrapMoves_filter_id, List.filter_comm,
    filter_batch_id_eq hnd hb, List.filter_cons_of_neg (by simp [hns])]
  rfl

theorem scrap_moves_filter_of_scrap {l : Ledger} {d : String} {b : Batch}
    (hnd : (l.batches.map (·.batch_id)).Nodup) (hb : b ∈ l.batches)
    (hs : isScrapCandidate d b = true) :
    (newMoves l (scrap_expired l d)).filter
      (fun mv => decide (mv.batch_id = some b.batch_id)) = [expiredMove d b] := by
  rw [newMoves_scrap, scrapMoves_filter_id, List.filter_comm,
    filter_batch_id_eq hnd hb, List.filter_cons_of_pos hs]
  rfl

/-! ### Witness fixtures (concrete ledgers from the spec's test scenarios) -/

/-- Two dated batches of item A and a 60-unit daily plan (spec section 8). -/
def wLedger : Ledger :=
  { medicines := ["A"]
    batches := [⟨1, "A", "A_b1", 50, some "2024-01-10"⟩, ⟨2, "A", "A_b2", 30, some "2024-02-01"⟩]
    daily_dosage := [⟨"A", some 30, some 10, some 10, some 10⟩]
    moves := [] }

/-- An already-expired batch of item A. -/
def wExpired : Batch := ⟨3, "A", "A_b0", 5, some "2023-12-01"⟩

/-- A never-expiring batch of item A. -/
def wNullExp : Batch := ⟨4, "A", "A_bn", 7, none⟩

/-- `wLedger` plus the expired batch and the never-expiring batch. -/
def wLedger2 : Ledger := { wLedger with batches := wExpired :: wNullExp :: wLedger.batches }

/-! ### Claim theorems -/

/-- C1: for every plan item with `units_per_day > 0` whose eligible batches
(positive stock, expiry null or on/after the run date) hold at least
`units_per_day` units in aggregate, one non-skipped run consumes exactly
`units_per_day` in total from that item's batches (its `daily_dose` movement
deltas sum to the negated requirement), and it drains the batches in FEFO
order: the referenced batch ids form a prefix of the candidate list sorted by
ascending expiry date, null expiry last, ties broken by ascending batch id
(the list is `Pairwise fefoLe`). -/
theorem fefo_consumes_exact (l : Ledger) (d med : String) (need : Int) (force : Bool)
    (hids : (l.batches.map (·.batch_id)).Nodup)
    (hdd : (l.daily_dosage.map (·.medicine_id)).Nodup)
    (hmem : (med, need) ∈ plan l)
    (hagg : ((need : Int) : ℚ) ≤ aggStock l med d)
    (hguard : already_ran_for l d = false ∨ force = true) :
    ((((consumptionFor med (newMoves l (run l d force).2)).map (·.qty_change)).sum =
      -((need : Int) : ℚ)) ∧
    (∃ k, (consumptionFor med (newMoves l (run l d force).2)).map (·.batch_id) =
      ((candidates l med d).map fun b => some b.batch_id).take k)) ∧
    List.Pairwise (fun a b => fefoLe a b = true) (candidates l med d) := by
  rw [run_commits hguard]
  refine ⟨⟨consumption_sum_core l d med need hids hdd hmem hagg, ?_⟩,
    List.sorted_insertionSort _ _⟩
  obtain ⟨hcons, _⟩ := applyRun_item_spec l d med need hids hdd hmem
  obtain ⟨k, hk⟩ := itemTakes_ids_prefix l med d need
  refine ⟨k, ?_⟩
  rw [hcons, List.map_map]
  have h1 : ((itemTakes l med d need).map
      ((fun mv => mv.batch_id) ∘ fun t => consumptionMove d med t.1 t.2)) =
      ((itemTakes l med d need).map (·.1)).map some := by
    rw [List.map_map]
    rfl
  rw [h1, hk, List.map_take, List.map_map]
  rfl

/-- Witness for C1 on the spec's two-batch scenario. -/
theorem fefo_consumes_exact_witness :
    ((("A", (60 : Int)) ∈ plan wLedger) ∧
      (((60 : Int) : ℚ) ≤ aggStock wLedger "A" "2024-01-05")) ∧
    ((((consumptionFor "A" (newMoves wLedger (run wLedger "2024-01-05" false).2)).map
        (·.qty_change)).sum = -(((60 : Int)) : ℚ)) ∧
      (∃ k, (consumptionFor "A" (newMoves wLedger (run wLedger "2024-01-05" false).2)).map
          (·.batch_id) =
        ((candidates wLedger "A" "2024-01-05").map fun b => some b.batch_id).take k)) ∧
    List.Pairwise (fun a b => fefoLe a b = true) (candidates wLedger "A" "2024-01-05") :=
  ⟨⟨by decide, by norm_num [show aggStock wLedger "A" "2024-01-05" = 50 + (30 + 0) from rfl]⟩,
    (fefo_consumes_exact wLedger "2024-01-05" "A" 60 false (by decide) (by decide) (by decide)
      (by norm_num [show aggStock wLedger "A" "2024-01-05" = 50 + (30 + 0) from rfl])
      (Or.inl (by decide))).1,
    (fefo_consumes_exact wLedger "2024-01-05" "A" 60 false (by decide) (by decide) (by decide)
      (by norm_num [show aggStock wLedger "A" "2024-01-05" = 50 + (30 + 0) from rfl])
      (Or.inl (by decide))).2⟩

/-- C4: during reclamation for a run date, every batch with positive stock and
a non-null expiry date strictly before the run date has its stock set to 0 and
gets exactly one `expired` movement whose delta is the negated pre-reclamation
quantity; null-expiry batches keep their stock and get no `expired` movement,
and zero-stock batches get no movement. -/
theorem scrap_expired_spec (l : Ledger) (d : String)
    (hids : (l.batches.map (·.batch_id)).Nodup) :
    ∀ b ∈ l.batches,
      ((0 < b.stock_units ∧ ∃ e, b.expiry_date = some e ∧ strLt (dateOf e) (dateOf d) = true) →
        stockOf (scrap_expired l d) b.batch_id = 0 ∧
        (newMoves l (scrap_expired l d)).filter
          (fun mv => decide (mv.batch_id = some b.batch_id)) = [expiredMove d b] ∧
        (expiredMove d b).qty_change = - b.stock_units ∧
        (expiredMove d b).reason = "expired") ∧
      (b.expiry_date = none →
        stockOf (scrap_expired l d) b.batch_id = stockOf l b.batch_id ∧
        (newMoves l (scrap_expired l d)).filter
          (fun mv => decide (mv.batch_id = some b.batch_id)) = []) ∧
      (¬ 0 < b.stock_units →
        (newMoves l (scrap_expired l d)).filter
          (fun mv => decide (mv.batch_id = some b.batch_id)) = []) := by
  intro b hb
  refine ⟨?_, ?_, ?_⟩
  · rintro ⟨hpos, e, hexp, hlt⟩
    have hscrap : isScrapCandidate d b = true := by
      simp [isScrapCandidate, hexp, hlt, hpos]
    refine ⟨?_, scrap_moves_filter_of_scrap hids hb hscrap, rfl, rfl⟩
    rw [stockOf, scrap_filter_id, filter_batch_id_eq hids hb, List.map_cons,
      if_pos ((mem_scrapIds_iff hids hb).mpr hscrap)]
    simp
  · intro hexp
    have hns : isScrapCandidate d b = false := by
      rw [isScrapCandidate, hexp]
      simp
    refine ⟨?_, scrap_moves_filter_of_not hids hb hns⟩
    rw [stockOf, scrap_filter_id, filter_batch_id_eq hids hb, List.map_cons,
      if_neg (fun hc => by rw [(mem_scrapIds_iff hids hb).mp hc] at hns; cases hns),
      stockOf_eq hids hb]
    simp
  · intro hpos
    have hns : isScrapCandidate d b = false := by
      rw [isScrapCandidate, decide_eq_false hpos, Bool.false_and]
    exact scrap_moves_filter_of_not hids hb hns

/-- Witness for C4 on a ledger holding one expired, one dated and one
never-expiring batch. -/
theorem scrap_expired_spec_witness :
    (stockOf (scrap_expired wLedger2 "2024-01-05") 3 = 0 ∧
      (newMoves wLedger2 (scrap_expired wLedger2 "2024-01-05")).filter
        (fun mv => decide (mv.batch_id = some 3)) = [expiredMove "2024-01-05" wExpired] ∧
      (expiredMove "2024-01-05" wExpired).qty_change = - wExpired.stock_units ∧
      (expiredMove "2024-01-05" wExpired).reason = "expired") ∧
    (stockOf (scrap_expired wLedger2 "2024-01-05") 4 = stockOf wLedger2 4 ∧
      (newMoves wLedger2 (scrap_expired wLedger2 "2024-01-05")).filter
        (fun mv => decide (mv.batch_id = some 4)) = []) :=
  ⟨((scrap_expired_spec wLedger2 "2024-01-05" (by decide)) wExpired (by decide)).1
      ⟨by decide, "2023-12-01", rfl, by decide⟩,
    ((scrap_expired_spec wLedger2 "2024-01-05" (by decide)) wNullExp (by decide)).2.1 rfl⟩

/-- C5: a run preserves the reconciliation invariant: if every batch's stock
is non-negative and equals its original stock plus the signed sum of the
movements referencing it, the same holds after the run (every `expired` and
`daily_dose` movement carries a delta equal and opposite to the stock change
it applies), and every `shortfall` movement the run appends has delta 0 and a
null batch reference. -/
theorem run_reconciliation (l : Ledger) (d : String) (force : Bool) (base : Nat → ℚ)
    (hids : (l.batches.map (·.batch_id)).Nodup)
    (hinv : Reconciled base l) :
    Reconciled base (run l d force).2 ∧
    ∀ mv ∈ newMoves l (run l d force).2, mv.reason = "shortfall" →
      mv.qty_change = 0 ∧ mv.batch_id = none := by
  unfold run
  split
  · constructor
    · exact hinv
    · intro mv hmv
      rw [newMoves, List.drop_length] at hmv
      cases hmv
  · constructor
    · show Reconciled base (applyRun l d)
      rw [applyRun, fefo_deduct]
      exact foldl_processItem_reconciled _ _
        (by rw [scrap_expired_ids]; exact hids)
        (scrap_reconciled hids hinv)
    · intro mv hmv hsf
      obtain ⟨ms, hms, hprop⟩ := applyRun_newMoves l d
      rw [hms] at hmv
      rcases List.mem_append.mp hmv with hmv | hmv
      · have hre := (scrapMoves_reason hmv).1
        rw [hsf] at hre
        exact absurd hre (by decide)
      · rcases (hprop mv hmv).2 with hdose | hshort
        · rw [hsf] at hdose
          exact absurd hdose (by decide)
        · exact ⟨hshort.2.1, hshort.2.2⟩

/-- Witness for C5 on the spec's two-batch scenario, with the original stocks
as the base. -/
theorem run_reconciliation_witness :
    Reconciled (fun i => if i = 1 then 50 else if i = 2 then 30 else 0)
      (run wLedger "2024-01-05" false).2 ∧
    ∀ mv ∈ newMoves wLedger (run wLedger "2024-01-05" false).2, mv.reason = "shortfall" →
      mv.qty_change = 0 ∧ mv.batch_id = none :=
  run_reconciliation wLedger "2024-01-05" false _ (by decide)
    (by
      intro b hb
      rcases List.mem_cons.mp hb with rfl | hb
      · exact ⟨by decide, by norm_num [show movesSum 1 wLedger.moves = 0 from rfl]⟩
      · rcases List.mem_cons.mp hb with rfl | hb
        · exact ⟨by decide, by norm_num [show movesSum 2 wLedger.moves = 0 from rfl]⟩
        · cases hb)

/-- Item A with enough stock plus item B with a 2-unit plan and no stock. -/
def wLedger3 : Ledger :=
  { medicines := ["A", "B"]
    batches := [⟨1, "A", "A_b1", 50, some "2024-01-10"⟩, ⟨2, "A", "A_b2", 30, some "2024-02-01"⟩]
    daily_dosage := [⟨"A", some 30, some 10, some 10, some 10⟩, ⟨"B", some 2, some 0, some 0, some 0⟩]
    moves := [] }

/-- C6: for a plan item whose requirement is unmet after walking all eligible
batches, when the unmet amount exceeds the 1e-6 tolerance the run appends
exactly one `shortfall` movement (delta 0, null batch reference, note carrying
the unmet quantity), and a shortfall on one item never prevents the allocator
from fully processing every other plan item. -/
theorem shortfall_spec (l : Ledger) (d med : String) (need : Int) (force : Bool)
    (hids : (l.batches.map (·.batch_id)).Nodup)
    (hdd : (l.daily_dosage.map (·.medicine_id)).Nodup)
    (hmem : (med, need) ∈ plan l)
    (hshort : tol < ((need : Int) : ℚ) - aggStock l med d)
    (hguard : already_ran_for l d = false ∨ force = true) :
    shortfallFor med (newMoves l (run l d force).2) =
      [shortfallMove d med (((need : Int) : ℚ) - aggStock l med d)] ∧
    ∀ med₂ need₂, (med₂, need₂) ∈ plan l → ¬ med₂ = med →
      ((need₂ : Int) : ℚ) ≤ aggStock l med₂ d →
      ((consumptionFor med₂ (newMoves l (run l d force).2)).map (·.qty_change)).sum =
        -((need₂ : Int) : ℚ) := by
  rw [run_commits hguard]
  constructor
  · obtain ⟨_, hsf⟩ := applyRun_item_spec l d med need hids hdd hmem
    have h0 : (0 : ℚ) ≤ ((need : Int) : ℚ) := by
      exact_mod_cast le_of_lt (plan_need_pos hmem)
    have hagglt : aggStock l med d < ((need : Int) : ℚ) := by
      have ht := tol_pos
      linarith
    have hmin : sumTakes (itemTakes l med d need) = aggStock l med d := by
      rw [sumTakes_itemTakes l med d need h0, min_eq_right (le_of_lt hagglt)]
    rw [hsf, hmin, if_pos hshort]
  · intro med₂ need₂ hmem₂ _ hagg₂
    exact consumption_sum_core l d med₂ need₂ hids hdd hmem₂ hagg₂

/-- Witness for C6: item B shortfalls by 2 while item A still consumes 60. -/
theorem shortfall_spec_witness :
    (tol < ((2 : Int) : ℚ) - aggStock wLedger3 "B" "2024-01-05") ∧
    shortfallFor "B" (newMoves wLedger3 (run wLedger3 "2024-01-05" false).2) =
      [shortfallMove "2024-01-05" "B" (((2 : Int) : ℚ) - aggStock wLedger3 "B" "2024-01-05")] ∧
    ((consumptionFor "A" (newMoves wLedger3 (run wLedger3 "2024-01-05" false).2)).map
      (·.qty_change)).sum = -(((60 : Int)) : ℚ) :=
  have hsh : tol < ((2 : Int) : ℚ) - aggStock wLedger3 "B" "2024-01-05" := by
    norm_num [tol, show aggStock wLedger3 "B" "2024-01-05" = 0 from rfl]
  ⟨hsh,
    (shortfall_spec wLedger3 "2024-01-05" "B" 2 false (by decide) (by decide) (by decide)
      hsh (Or.inl (by decide))).1,
    (shortfall_spec wLedger3 "2024-01-05" "B" 2 false (by decide) (by decide) (by decide)
      hsh (Or.inl (by decide))).2 "A" 60 (by decide) (by decide)
      (by norm_num [show aggStock wLedger3 "A" "2024-01-05" = 50 + (30 + 0) from rfl])⟩

/-- A batch expiring exactly on the run date. -/
def wBoundary : Batch := ⟨5, "A", "A_bb", 9, some "2024-01-05"⟩

/-- A ledger holding only the boundary batch. -/
def wLedger4 : Ledger := { wLedger with batches := [wBoundary] }

/-- C8: a batch whose expiry date equals the run date is not reclaimed
(reclamation filters strictly before the run date) and, when it has stock, it
remains an eligible FEFO candidate for consumption in the same run. -/
theorem expiry_boundary (l : Ledger) (d : String) (b : Batch)
    (hids : (l.batches.map (·.batch_id)).Nodup)
    (hb : b ∈ l.batches) (hexp : b.expiry_date = some d) :
    b ∈ (scrap_expired l d).batches ∧
    (newMoves l (scrap_expired l d)).filter
      (fun mv => decide (mv.batch_id = some b.batch_id)) = [] ∧
    (0 < b.stock_units → b ∈ candidates (scrap_expired l d) b.medicine_id d) := by
  have hns : isScrapCandidate d b = false := by
    simp [isScrapCandidate, hexp, strLt_irrefl]
  have hnotm : b.batch_id ∉ scrapIds l d := fun hc => by
    rw [(mem_scrapIds_iff hids hb).mp hc] at hns
    cases hns
  refine ⟨?_, scrap_moves_filter_of_not hids hb hns, ?_⟩
  · rw [scrap_expired_batches]
    exact List.mem_map.mpr ⟨b, hb, by rw [if_neg hnotm]⟩
  · intro hpos
    apply mem_candidates.mpr
    refine ⟨?_, ?_⟩
    · rw [scrap_expired_batches]
      exact List.mem_map.mpr ⟨b, hb, by rw [if_neg hnotm]⟩
    · simp [isCandidate, hexp, hpos, strLe, strLt_irrefl]

/-- Witness for C8 at the boundary batch. -/
theorem expiry_boundary_witness :
    wBoundary ∈ (scrap_expired wLedger4 "2024-01-05").batches ∧
    (newMoves wLedger4 (scrap_expired wLedger4 "2024-01-05")).filter
      (fun mv => decide (mv.batch_id = some wBoundary.batch_id)) = [] ∧
    wBoundary ∈ candidates (scrap_expired wLedger4 "2024-01-05") "A" "2024-01-05" :=
  have h := expiry_boundary wLedger4 "2024-01-05" wBoundary (by decide) (by decide) rfl
  ⟨h.1, h.2.1, h.2.2 (by decide)⟩

/-- An item with a zero daily plan and a zero-stock batch. -/
def wLedgerZ : Ledger :=
  { medicines := ["Z"]
    batches := [⟨7, "Z", "z1", 0, none⟩]
    daily_dosage := [⟨"Z", some 0, none, none, none⟩]
    moves := [] }

/-- C9: an item whose `units_per_day` (the sum of the four slots) is at most 0
is excluded from allocation entirely: the allocator leaves all of its batches
unchanged and appends no movement for it, not even a shortfall, even when the
item has zero stock. -/
theorem zero_dose_untouched (l : Ledger) (d med : String) (r : DosageRow)
    (hids : (l.batches.map (·.batch_id)).Nodup)
    (hdd : (l.daily_dosage.map (·.medicine_id)).Nodup)
    (hr : r ∈ l.daily_dosage) (hrm : r.medicine_id = med)
    (hle : units_per_day r ≤ 0) :
    ((fefo_deduct l d).batches.filter fun b => decide (b.medicine_id = med)) =
      (l.batches.filter fun b => decide (b.medicine_id = med)) ∧
    ∀ mv ∈ newMoves l (fefo_deduct l d), ¬ mv.medicine_id = med := by
  have hnotplan : med ∉ (plan l).map (·.1) := by
    intro hc
    obtain ⟨q, hqmem, hqfst⟩ := List.mem_map.mp hc
    have h2 := List.mem_filter.mp hqmem
    obtain ⟨r', hr', hre⟩ := List.mem_map.mp h2.1
    have hpos : 0 < q.2 := by simpa using h2.2
    have hrm' : r'.medicine_id = med := by rw [← hqfst, ← hre]
    have hrr : r' = r := List.inj_on_of_nodup_map hdd hr' hr (by rw [hrm', hrm])
    have hpos' : 0 < units_per_day r' := by
      rw [← hre] at hpos
      exact hpos
    rw [hrr] at hpos'
    exact absurd hpos' (not_lt.mpr hle)
  constructor
  · rw [fefo_deduct]
    exact foldl_processItem_filter (fun b hb => by simpa using hb) (plan l) l hids hnotplan
  · intro mv hmv hce
    obtain ⟨ms, hms, hprop⟩ := foldl_processItem_moves d (plan l) l
    rw [newMoves, fefo_deduct, hms, List.drop_left] at hmv
    exact hnotplan (hce ▸ (hprop mv hmv).1)

/-- Witness for C9 on a zero-dose, zero-stock item. -/
theorem zero_dose_untouched_witness :
    (((fefo_deduct wLedgerZ "2024-01-05").batches.filter
        fun b => decide (b.medicine_id = "Z")) =
      (wLedgerZ.batches.filter fun b => decide (b.medicine_id = "Z"))) ∧
    ∀ mv ∈ newMoves wLedgerZ (fefo_deduct wLedgerZ "2024-01-05"), ¬ mv.medicine_id = "Z" :=
  zero_dose_untouched wLedgerZ "2024-01-05" "Z" ⟨"Z", some 0, none, none, none⟩
    (by decide) (by decide) (by decide) rfl (by decide)

theorem run_moves_ts_aux (l : Ledger) (d : String) (force : Bool) :
    ∀ mv ∈ newMoves l (run l d force).2, mv.ts = log_ts d := by
  by_cases hg : (already_ran_for l d && ! force) = true
  · have hrun : run l d force = (RunResult.skipped, l) := by
      unfold run
      rw [if_pos hg]
    rw [hrun]
    intro mv hmv
    rw [newMoves, List.drop_length] at hmv
    cases hmv
  · have hrun : run l d force = (RunResult.committed, applyRun l d) := by
      unfold run
      rw [if_neg hg]
    rw [hrun]
    show ∀ mv ∈ newMoves l (applyRun l d), mv.ts = log_ts d
    intro mv hmv
    obtain ⟨ms, hms, hprop⟩ := applyRun_newMoves l d
    rw [hms] at hmv
    rcases List.mem_append.mp hmv with h | h
    · exact (scrapMoves_reason h).2
    · exact (hprop mv h).1

/-- C10: every movement appended by one run, expired, daily_dose and
shortfall alike, carries the identical timestamp string
`<run date> 20:00:00`, so all movements of one run compare equal in
timestamp order. -/
theorem run_moves_timestamp (l : Ledger) (d : String) (force : Bool) :
    (∀ mv ∈ newMoves l (run l d force).2, mv.ts = log_ts d) ∧
    (∀ mv ∈ newMoves l (run l d force).2, ∀ mv' ∈ newMoves l (run l d force).2,
      mv.ts = mv'.ts) :=
  ⟨run_moves_ts_aux l d force,
    fun mv h mv' h' =>
      (run_moves_ts_aux l d force mv h).trans (run_moves_ts_aux l d force mv' h').symm⟩

/-- A ledger with only an expired batch and an empty plan. -/
def wLedgerS : Ledger :=
  { medicines := ["A"], batches := [wExpired], daily_dosage := [], moves := [] }

/-- Witness for C10 on the `expired` movement of a reclamation-only run. -/
theorem run_moves_timestamp_witness :
    (expiredMove "2024-01-05" wExpired) ∈
      newMoves wLedgerS (run wLedgerS "2024-01-05" false).2 ∧
    (expiredMove "2024-01-05" wExpired).ts = log_ts "2024-01-05" :=
  have hmem : (expiredMove "2024-01-05" wExpired) ∈
      newMoves wLedgerS (run wLedgerS "2024-01-05" false).2 := by
    have h : newMoves wLedgerS (run wLedgerS "2024-01-05" false).2 =
        [expiredMove "2024-01-05" wExpired] := rfl
    rw [h]
    exact List.mem_singleton.mpr rfl
  ⟨hmem, (run_moves_timestamp wLedgerS "2024-01-05" false).1 _ hmem⟩

/-! ### C2: the idempotence guard -/

theorem dateOf_log_ts {d : String} (h : 10 ≤ d.length) : dateOf (log_ts d) = dateOf d := by
  unfold dateOf log_ts
  rw [String.data_append]
  congr 1
  apply List.take_append_of_le_length
  rw [String.length_data]
  exact h

theorem already_ran_iff (l : Ledger) (d : String) :
    already_ran_for l d = true ↔
      ∃ mv ∈ l.moves, mv.reason = "daily_dose" ∧ dateOf mv.ts = dateOf d := by
  unfold already_ran_for
  rw [List.any_eq_true]
  simp

/-- An item with a 1-unit plan and no batches: its run appends only a
shortfall movement, which does not arm the guard. -/
def ceL0 : Ledger :=
  { medicines := ["A"]
    batches := []
    daily_dosage := [⟨"A", some 1, some 0, some 0, some 0⟩]
    moves := [] }

/-- The ledger after one run of `ceL0` for 2024-01-05. -/
def ceL1 : Ledger :=
  { ceL0 with moves := [shortfallMove "2024-01-05" "A" ((1 : Int) : ℚ)] }

/-- C2 counterexample: after a first run that recorded only a shortfall (no
`daily_dose` movement), a second run for the same date with `force` unset is
not skipped and mutates the ledger again, refuting the claim's universally
quantified idempotence. -/
theorem run_idempotent_counterexample :
    run ceL0 "2024-01-05" false = (RunResult.committed, ceL1) ∧
    (run ceL1 "2024-01-05" false).1 ≠ RunResult.skipped ∧
    (run ceL1 "2024-01-05" false).2 ≠ ceL1 := by
  have htol0 : sumTakes (itemTakes ceL0 "A" "2024-01-05" 1) = 0 := rfl
  have htol : tol < ((1 : Int) : ℚ) - sumTakes (itemTakes ceL0 "A" "2024-01-05" 1) := by
    rw [htol0]
    norm_num [tol]
  have htol1' : sumTakes (itemTakes ceL1 "A" "2024-01-05" 1) = 0 := rfl
  have htol1 : tol < ((1 : Int) : ℚ) - sumTakes (itemTakes ceL1 "A" "2024-01-05" 1) := by
    rw [htol1']
    norm_num [tol]
  refine ⟨?_, ?_, ?_⟩
  · have h1 : run ceL0 "2024-01-05" false =
        (RunResult.committed, processItem "2024-01-05" ceL0 "A" 1) := rfl
    have hx : ((1 : Int) : ℚ) - sumTakes (itemTakes ceL0 "A" "2024-01-05" 1) =
        ((1 : Int) : ℚ) := by
      rw [htol0, sub_zero]
    rw [h1, processItem_eq, if_pos htol, hx]
    rfl
  · have h1 : run ceL1 "2024-01-05" false =
        (RunResult.committed, processItem "2024-01-05" ceL1 "A" 1) := rfl
    rw [h1]
    intro h
    cases h
  · have h1 : run ceL1 "2024-01-05" false =
        (RunResult.committed, processItem "2024-01-05" ceL1 "A" 1) := rfl
    have hlen : (run ceL1 "2024-01-05" false).2.moves.length = 2 := by
      rw [h1, processItem_eq, if_pos htol1]
      rfl
    intro h
    rw [h] at hlen
    exact absurd hlen (by decide)

/-- C2 (amended): the guard `already_ran_for` is true iff at least one
`daily_dose` movement carries a timestamp on the run date; a guard refusal
returns Skip and performs no mutation; and a second run for the same
(well-formed) date with `force` unset is skipped and leaves the ledger
byte-for-byte unchanged provided the first run appended at least one
`daily_dose` movement.  (A first run that consumed nothing — e.g. one that
only recorded shortfalls — does not arm the guard, so the unrestricted
claim fails; see the counterexample.) -/
theorem run_guard_spec (l : Ledger) (d : String) (hwf : 10 ≤ d.length) :
    (already_ran_for l d = true ↔
      ∃ mv ∈ l.moves, mv.reason = "daily_dose" ∧ dateOf mv.ts = dateOf d) ∧
    (already_ran_for l d = true → run l d false = (RunResult.skipped, l)) ∧
    ∀ force, (∃ mv ∈ newMoves l (run l d force).2, mv.reason = "daily_dose") →
      run (run l d force).2 d false = (RunResult.skipped, (run l d force).2) := by
  have hskip : ∀ l' : Ledger, already_ran_for l' d = true →
      run l' d false = (RunResult.skipped, l') := by
    intro l' hg
    unfold run
    rw [hg]
    simp
  refine ⟨already_ran_iff l d, hskip l, ?_⟩
  rintro force ⟨mv, hmv, hreason⟩
  have hts : mv.ts = log_ts d := run_moves_ts_aux l d force mv hmv
  have hmv' : mv ∈ (run l d force).2.moves := by
    rw [newMoves] at hmv
    exact List.mem_of_mem_drop hmv
  have hg : already_ran_for (run l d force).2 d = true :=
    (already_ran_iff _ d).mpr ⟨mv, hmv', hreason, by rw [hts]; exact dateOf_log_ts hwf⟩
  exact hskip _ hg

/-- A ledger whose log already holds a consumption movement for 2024-01-05. -/
def wGuard : Ledger :=
  { medicines := ["A"]
    batches := []
    daily_dosage := []
    moves := [⟨"2024-01-05 20:00:00", "A", none, 0, "daily_dose", "prior run"⟩] }

/-- Witness for C2 (amended): the armed guard makes the run skip untouched. -/
theorem run_guard_spec_witness :
    (10 ≤ ("2024-01-05" : String).length ∧ already_ran_for wGuard "2024-01-05" = true) ∧
    run wGuard "2024-01-05" false = (RunResult.skipped, wGuard) :=
  ⟨⟨by decide, by decide⟩,
    (run_guard_spec wGuard "2024-01-05" (by decide)).2.1 (by decide)⟩

/-! ### C3: transactional atomicity of one run -/

/-- A database effect: a mutation of the pending transaction state, or a
commit making the pending state durable. -/
inductive Eff
  | mutate (f : Ledger → Ledger)
  | commit

/-- Connection state: the last durably committed ledger and the pending one
of the open transaction. -/
structure ConnState where
  durable : Ledger
  pending : Ledger

/-- Execute a list of effects: mutations touch only the pending state;
a commit copies pending into durable. -/
def execEffs : ConnState → List Eff → ConnState
  | s, [] => s
  | s, Eff.mutate f :: r => execEffs { s with pending := f s.pending } r
  | s, Eff.commit :: r => execEffs { durable := s.pending, pending := s.pending } r

/-- Rollback of the open transaction, as the `with sqlite3.connect(...)`
context manager performs on an exception. -/
def rollback (s : ConnState) : ConnState := { s with pending := s.durable }

/-- The effect trace of one unguarded run, in source order: `executescript`'s
implicit commit (issued before any ledger mutation), the reclamation
mutation, one mutation per plan item, and the final `conn.commit()`. -/
def runEffects (l : Ledger) (run_date : String) : List Eff :=
  Eff.commit :: Eff.mutate (scrap_expired · run_date) ::
    (((plan (scrap_expired l run_date)).map fun q =>
      Eff.mutate fun acc => processItem run_date acc q.1 q.2) ++ [Eff.commit])

/-- A run hit by a data-access error after `k` effects: the executed prefix,
then rollback. -/
def runFromFault (l : Ledger) (run_date : String) (k : Nat) : ConnState :=
  rollback (execEffs ⟨l, l⟩ ((runEffects l run_date).take k))

theorem execEffs_mutates (fs : List (Ledger → Ledger)) :
    ∀ s : ConnState, execEffs s (fs.map Eff.mutate) =
      ⟨s.durable, fs.foldl (fun acc f => f acc) s.pending⟩ := by
  induction fs with
  | nil => intro s; rfl
  | cons f fs ih =>
    intro s
    rw [List.map_cons]
    show execEffs { s with pending := f s.pending } (fs.map Eff.mutate) = _
    rw [ih]
    rfl

theorem execEffs_append (a b : List Eff) :
    ∀ s : ConnState, execEffs s (a ++ b) = execEffs (execEffs s a) b := by
  induction a with
  | nil => intro s; rfl
  | cons e a ih =>
    intro s
    cases e with
    | mutate f => exact ih _
    | commit => exact ih _

/-- C3: the reclamation-plus-allocation sequence of one run is atomic.  A
data-access error after any proper prefix of the run's effects rolls the
ledger back to exactly the pre-run state (the only commit preceding the final
one happens before any mutation), and an uninterrupted run durably commits
exactly the reclamation-then-allocation result. -/
theorem run_atomic (l : Ledger) (d : String) (k : Nat)
    (hk : k < (runEffects l d).length) :
    (runFromFault l d k).durable = l ∧
    (execEffs ⟨l, l⟩ (runEffects l d)).durable = applyRun l d ∧
    (execEffs ⟨l, l⟩ (runEffects l d)).pending = applyRun l d := by
  have hmapsplit : ((plan (scrap_expired l d)).map fun q =>
      Eff.mutate fun acc => processItem d acc q.1 q.2) =
      ((plan (scrap_expired l d)).map fun q =>
        (fun acc : Ledger => processItem d acc q.1 q.2)).map Eff.mutate := by
    rw [List.map_map]
    rfl
  have hfull : execEffs ⟨l, l⟩ (runEffects l d) =
      ⟨applyRun l d, applyRun l d⟩ := by
    show execEffs ⟨l, scrap_expired l d⟩ _ = _
    rw [hmapsplit, execEffs_append, execEffs_mutates, List.foldl_map]
    rfl
  refine ⟨?_, by rw [hfull], by rw [hfull]⟩
  match k with
  | 0 => rfl
  | 1 => rfl
  | Nat.succ (Nat.succ i) =>
    have hlen : ((plan (scrap_expired l d)).map fun q =>
        Eff.mutate fun acc => processItem d acc q.1 q.2).length =
        (plan (scrap_expired l d)).length := List.length_map _ _
    have hlen3 : (runEffects l d).length = (plan (scrap_expired l d)).length + 3 := by
      simp [runEffects]
    rw [hlen3] at hk
    have hi : i ≤ (plan (scrap_expired l d)).length := by omega
    show (rollback (execEffs ⟨l, l⟩
      (Eff.commit :: Eff.mutate (scrap_expired · d) ::
        ((((plan (scrap_expired l d)).map fun q =>
          Eff.mutate fun acc => processItem d acc q.1 q.2) ++ [Eff.commit]).take i)))).durable = l
    rw [List.take_append_of_le_length (by rw [hlen]; exact hi), ← List.map_take]
    have hmapsplit2 : (((plan (scrap_expired l d)).take i).map fun q =>
        Eff.mutate fun acc => processItem d acc q.1 q.2) =
        (((plan (scrap_expired l d)).take i).map fun q =>
          (fun acc : Ledger => processItem d acc q.1 q.2)).map Eff.mutate := by
      rw [List.map_map]
      rfl
    show (rollback (execEffs ⟨l, scrap_expired l d⟩
      (((plan (scrap_expired l d)).take i).map fun q =>
        Eff.mutate fun acc => processItem d acc q.1 q.2) )).durable = l
    rw [hmapsplit2, execEffs_mutates]
    rfl

/-- Witness for C3: a fault after two effects of the two-batch scenario rolls
back to the initial ledger. -/
theorem run_atomic_witness :
    (2 < (runEffects wLedger "2024-01-05").length) ∧
    (runFromFault wLedger "2024-01-05" 2).durable = wLedger ∧
    (execEffs ⟨wLedger, wLedger⟩ (runEffects wLedger "2024-01-05")).durable =
      applyRun wLedger "2024-01-05" :=
  ⟨by decide,
    (run_atomic wLedger "2024-01-05" 2 (by decide)).1,
    (run_atomic wLedger "2024-01-05" 2 (by decide)).2.1⟩

/-! ### C7: plan entries referencing unknown items, under enforced foreign keys

The allocator itself has no handling for a dosage entry whose medicine is
missing from `medicines`.  Since `main` sets `PRAGMA foreign_keys = ON`, every
`stock_moves` insert checks its `medicine_id` reference; this refined model
makes that check explicit. -/

/-- Foreign-key check of one `stock_moves` insert under
`PRAGMA foreign_keys = ON`. -/
def moveFKOk (l : Ledger) (mv : Movement) : Bool :=
  decide (mv.medicine_id ∈ l.medicines) &&
    (match mv.batch_id with
     | none => true
     | some i => decide (i ∈ l.batches.map (·.batch_id)))

/-- Insert into `stock_moves` with foreign keys enforced: the statement raises
(sqlite `IntegrityError`) when a reference does not resolve. -/
def insertMoveFK (l : Ledger) (mv : Movement) : Except String Ledger :=
  if moveFKOk l mv then Except.ok { l with moves := l.moves ++ [mv] }
  else Except.error "FOREIGN KEY constraint failed"

/-- The inner loop of `fefo_deduct` with FK-checked movement inserts; a raised
insert aborts the loop (the Python exception propagates). -/
def walkBatchesFK (run_date med : String) :
    List (Nat × ℚ) → ℚ → Ledger → Except String (ℚ × Ledger)
  | [], remaining, l => Except.ok (remaining, l)
  | (bid, stock) :: rest, remaining, l =>
    if remaining ≤ 0 then Except.ok (remaining, l)
    else
      let take := min stock remaining
      if take ≤ 0 then walkBatchesFK run_date med rest remaining l
      else
        let l1 : Ledger :=
          { l with batches := l.batches.map fun b =>
              if b.batch_id = bid then { b with stock_units := b.stock_units - take }
              else b }
        match insertMoveFK l1 (consumptionMove run_date med bid take) with
        | Except.error e => Except.error e
        | Except.ok l2 => walkBatchesFK run_date med rest (remaining - take) l2

/-- One plan item of `fefo_deduct` with FK-checked inserts. -/
def processItemFK (run_date : String) (l : Ledger) (med : String) (need : Int) :
    Except String Ledger :=
  match walkBatchesFK run_date med
      ((candidates l med run_date).map fun b => (b.batch_id, b.stock_units))
      ((need : Int) : ℚ) l with
  | Except.error e => Except.error e
  | Except.ok (remaining, l1) =>
    if tol < remaining then insertMoveFK l1 (shortfallMove run_date med remaining)
    else Except.ok l1

/-- Source `fefo_deduct` with FK-checked inserts: the exception of any item
aborts the whole loop. -/
def fefo_deduct_fk (l : Ledger) (run_date : String) : Except String Ledger :=
  (plan l).foldlM (fun acc q => processItemFK run_date acc q.1 q.2) l

theorem tol_lt_one : tol < 1 := by norm_num [tol]

theorem insertMoveFK_ok_medicines {l l' : Ledger} {mv : Movement}
    (h : insertMoveFK l mv = Except.ok l') : l'.medicines = l.medicines := by
  unfold insertMoveFK at h
  split at h
  · cases h
    rfl
  · cases h

theorem insertMoveFK_error_msg {l : Ledger} {mv : Movement} {e : String}
    (h : insertMoveFK l mv = Except.error e) : e = "FOREIGN KEY constraint failed" := by
  unfold insertMoveFK at h
  split at h
  · cases h
  · cases h
    rfl

theorem insertMoveFK_unknown {l : Ledger} {mv : Movement}
    (h : mv.medicine_id ∉ l.medicines) :
    insertMoveFK l mv = Except.error "FOREIGN KEY constraint failed" := by
  unfold insertMoveFK
  have hb : moveFKOk l mv = false := by
    unfold moveFKOk
    rw [decide_eq_false h, Bool.false_and]
  rw [hb]
  rfl

theorem walkBatchesFK_unknown (d med : String) :
    ∀ (cs : List (Nat × ℚ)) (r : ℚ) (l : Ledger), med ∉ l.medicines →
      walkBatchesFK d med cs r l = Except.error "FOREIGN KEY constraint failed" ∨
      walkBatchesFK d med cs r l = Except.ok (r, l)
  | [], _, _, _ => Or.inr rfl
  | (bid, stock) :: rest, r, l, hm => by
    rw [walkBatchesFK]
    split
    · exact Or.inr rfl
    · dsimp only
      split
      · exact walkBatchesFK_unknown d med rest r l hm
      · have hins := @insertMoveFK_unknown
          { l with batches := l.batches.map fun b =>
            if b.batch_id = bid then { b with stock_units := b.stock_units - min stock r }
            else b }
          (consumptionMove d med bid (min stock r)) hm
        rw [hins]
        exact Or.inl rfl

theorem walkBatchesFK_medicines (d med : String) :
    ∀ (cs : List (Nat × ℚ)) (r : ℚ) (l : Ledger) (r' : ℚ) (l' : Ledger),
      walkBatchesFK d med cs r l = Except.ok (r', l') → l'.medicines = l.medicines
  | [], r, l, r', l', h => by
    rw [walkBatchesFK] at h
    cases h
    rfl
  | (bid, stock) :: rest, r, l, r', l', h => by
    rw [walkBatchesFK] at h
    split at h
    · cases h
      rfl
    · dsimp only at h
      split at h
      · exact walkBatchesFK_medicines d med rest r l r' l' h
      · split at h
        · cases h
        · rename_i l2 heq
          rw [walkBatchesFK_medicines d med rest _ l2 r' l' h,
            insertMoveFK_ok_medicines heq]

theorem walkBatchesFK_error_msg (d med : String) :
    ∀ (cs : List (Nat × ℚ)) (r : ℚ) (l : Ledger) (e : String),
      walkBatchesFK d med cs r l = Except.error e →
      e = "FOREIGN KEY constraint failed"
  | [], r, l, e, h => by
    rw [walkBatchesFK] at h
    cases h
  | (bid, stock) :: rest, r, l, e, h => by
    rw [walkBatchesFK] at h
    split at h
    · cases h
    · dsimp only at h
      split at h
      · exact walkBatchesFK_error_msg d med rest r l e h
      · split at h
        · rename_i e' heq
          cases h
          exact insertMoveFK_error_msg heq
        · exact walkBatchesFK_error_msg d med rest _ _ e h

theorem processItemFK_unknown (d : String) {med : String} {need : Int} (hpos : 0 < need)
    (l : Ledger) (hm : med ∉ l.medicines) :
    processItemFK d l med need = Except.error "FOREIGN KEY constraint failed" := by
  unfold processItemFK
  rcases walkBatchesFK_unknown d med
      ((candidates l med d).map fun b => (b.batch_id, b.stock_units))
      ((need : Int) : ℚ) l hm with h | h
  · rw [h]
  · rw [h]
    dsimp only
    have hlt : tol < ((need : Int) : ℚ) := by
      have h1 : (1 : ℚ) ≤ ((need : Int) : ℚ) := by exact_mod_cast hpos
      have h2 := tol_lt_one
      linarith
    rw [if_pos hlt]
    exact @insertMoveFK_unknown l (shortfallMove d med ((need : Int) : ℚ)) hm

theorem processItemFK_medicines {d med : String} {need : Int} {l l' : Ledger}
    (h : processItemFK d l med need = Except.ok l') : l'.medicines = l.medicines := by
  unfold processItemFK at h
  split at h
  · cases h
  · rename_i rem l1 heq
    split at h
    · rw [insertMoveFK_ok_medicines h]
      exact walkBatchesFK_medicines d med _ _ l rem l1 heq
    · cases h
      exact walkBatchesFK_medicines d med _ _ l rem l' heq

theorem processItemFK_error_msg {d med : String} {need : Int} {l : Ledger} {e : String}
    (h : processItemFK d l med need = Except.error e) :
    e = "FOREIGN KEY constraint failed" := by
  unfold processItemFK at h
  split at h
  · rename_i e' heq
    cases h
    exact walkBatchesFK_error_msg d med _ _ l e heq
  · split at h
    · exact insertMoveFK_error_msg h
    · cases h

theorem foldlM_processItemFK_error (d med : String) (need : Int) (hpos : 0 < need) :
    ∀ (ps : List (String × Int)) (l : Ledger), (med, need) ∈ ps → med ∉ l.medicines →
      ps.foldlM (fun acc q => processItemFK d acc q.1 q.2) l =
        Except.error "FOREIGN KEY constraint failed"
  | [], _, hmem, _ => absurd hmem (List.not_mem_nil _)
  | q :: ps, l, hmem, hm => by
    rw [List.foldlM_cons]
    cases hq : processItemFK d l q.1 q.2 with
    | error e =>
      rw [processItemFK_error_msg hq]
      rfl
    | ok l' =>
      rcases List.mem_cons.mp hmem with heq | hmem'
      · subst heq
        have hq' : processItemFK d l med need = Except.ok l' := hq
        rw [processItemFK_unknown d hpos l hm] at hq'
        cases hq'
      · have hm' : med ∉ l'.medicines := by
          rw [processItemFK_medicines hq]
          exact hm
        exact foldlM_processItemFK_error d med need hpos ps l' hmem' hm'

/-- A plan whose first entry references an unknown medicine (a configuration
inconsistency), followed by a resolvable entry with ample stock. -/
def ceFK : Ledger :=
  { medicines := ["MED-A"]
    batches := [⟨1, "MED-A", "L1", 10, some "2030-01-01"⟩]
    daily_dosage := [⟨"GHOST", some 1, some 0, some 0, some 0⟩,
      ⟨"MED-A", some 1, some 0, some 0, some 0⟩]
    moves := [] }

/-- C7 counterexample: with a plan entry referencing the unknown item GHOST,
the allocation run aborts with a foreign-key error; the entry is not skipped,
no warning is surfaced, and the remaining item MED-A is never processed. -/
theorem unknown_item_counterexample :
    fefo_deduct_fk ceFK "2024-01-05" =
      Except.error "FOREIGN KEY constraint failed" := by
  unfold fefo_deduct_fk
  exact foldlM_processItemFK_error "2024-01-05" "GHOST" 1 (by decide) (plan ceFK) ceFK
    (by decide) (by decide)

/-- C7 (amended): a dosage-plan entry referencing an item unknown to the store
is not skipped: the allocator processes it like any other entry, and because
`main` enforces foreign keys, the first movement insert for the unknown item
(a consumption or the shortfall) raises, aborting the entire allocation run
with a foreign-key error instead of surfacing a warning and continuing. -/
theorem unknown_item_aborts (l : Ledger) (d med : String) (need : Int)
    (hmem : (med, need) ∈ plan l) (hunknown : med ∉ l.medicines) :
    fefo_deduct_fk l d = Except.error "FOREIGN KEY constraint failed" := by
  unfold fefo_deduct_fk
  exact foldlM_processItemFK_error d med need (plan_need_pos hmem) (plan l) l hmem hunknown

/-- A single-entry plan referencing an unknown item in an empty store. -/
def ceFK2 : Ledger :=
  { medicines := []
    batches := []
    daily_dosage := [⟨"GHOST", some 2, some 0, some 0, some 0⟩]
    moves := [] }

/-- Witness for C7 (amended). -/
theorem unknown_item_aborts_witness :
    (("GHOST", (2 : Int)) ∈ plan ceFK2 ∧ "GHOST" ∉ ceFK2.medicines) ∧
    fefo_deduct_fk ceFK2 "2024-01-05" = Except.error "FOREIGN KEY constraint failed" :=
  ⟨⟨by decide, by decide⟩,
    unknown_item_aborts ceFK2 "2024-01-05" "GHOST" 2 (by decide) (by decide)⟩

end MedInventory
